import Mathlib

/-!
# Verification of the notion-sync reconciliation core

Shallow embedding of the repository's core modules and proofs of the
specification claims about them:

* `src/diff.ts` — the LCS-based block differ (`extractPlainText`,
  `getBlockContent`, `blocksMatch`, `diffBlocks`);
* `src/notion.ts` — the retry wrapper (`withRetry`) and the remote update
  (`updatePageContent`) with its leading-insert fallback;
* `src/state.ts` — `loadState`;
* `src/sync.ts` — `syncFile`, `pullNotionOnly`, `startupSync`,
  `syncFromNotion`, together with the `syncLock` gate.

Remote calls and filesystem access are modelled as explicit effect traces;
JavaScript exceptions are modelled with `Except`; `undefined`-able fields
are modelled with `Option`.
-/

namespace NotionSync

/-! ## Block model (diff.ts)

A JavaScript block value, as far as `diff.ts` inspects it: an optional `id`,
an optional `type` tag, and a map from type keys to bodies, where a body may
carry a `rich_text` array.  A rich-text item may carry a direct `plain_text`
field or a nested `text.content` field, each optionally.
-/

/-- A rich-text item: `plain_text?` and `text?: { content? }`. -/
structure RichTextItem where
  plain_text : Option String
  text : Option (Option String)
  deriving Repr, DecidableEq

/-- A block-like JS value as inspected by `diff.ts`: optional `id`, optional
`type`, and type-keyed bodies each with an optional `rich_text` array. -/
structure Block where
  id : Option String
  type : Option String
  fields : List (String × Option (List RichTextItem))
  deriving Repr, DecidableEq

/-- `extractPlainText` of one rich-text item: `plain_text` when present, else
`text.content` when present, else the empty string. -/
def extractItem (rt : RichTextItem) : String :=
  match rt.plain_text with
  | some s => s
  | none =>
    match rt.text with
    | some (some c) => c
    | _ => ""

/-- `extractPlainText`: concatenates the per-item plain text. -/
def extractPlainText (l : List RichTextItem) : String :=
  String.join (l.map extractItem)

/-- The `{type, text}` pair `getBlockContent` computes. -/
structure BlockContent where
  type : String
  text : String
  deriving Repr, DecidableEq

/-- `getBlockContent`: type is `block.type || ''`; text is the extracted
plain text of `block[type].rich_text` when that body and array exist,
else the empty string. -/
def getBlockContent (b : Block) : BlockContent :=
  let t := b.type.getD ""
  let text :=
    match b.fields.lookup t with
    | some (some rt) => extractPlainText rt
    | _ => ""
  ⟨t, text⟩

/-- `blocksMatch`: same type tag and same extracted plain text. -/
def blocksMatch (a b : Block) : Bool :=
  getBlockContent a == getBlockContent b

/-- `block.id || ''` as used for `keep`/`delete` op ids. -/
def bid (b : Block) : String :=
  b.id.getD ""

/-! ## Diff ops (diff.ts) -/

/-- A diff op: `keep`, `insert` (with anchor), `delete`, or `update`. -/
inductive DiffOp where
  | keep (blockId : String)
  | insert (afterBlockId : Option String) (newBlock : Block)
  | delete (blockId : String)
  | update (blockId : String) (newBlock : Block)
  deriving Repr, DecidableEq

/-- Default block used only to totalize list indexing. -/
def defBlock : Block := ⟨none, none, []⟩

/-- `old[i]` with a default, mirroring in-range array access. -/
def blockAt (l : List Block) (i : Nat) : Block :=
  l.getD i defBlock

/-- One row of the LCS table: row `i+1` as a function of column `j`, given
row `i` (`prev`) and the old block `ob = old[i]`. -/
def dpRowStep (ob : Block) (new : List Block) (prev : Nat → Nat) : Nat → Nat
  | 0 => 0
  | j + 1 =>
    if blocksMatch ob (blockAt new j) then prev j + 1
    else max (prev (j + 1)) (dpRowStep ob new prev j)

/-- Row `i` of the LCS table. -/
def dpRows (old new : List Block) : Nat → Nat → Nat
  | 0 => fun _ => 0
  | i + 1 => dpRowStep (blockAt old i) new (dpRows old new i)

/-- The LCS dynamic-programming table of `diffBlocks`:
`dp old new i j` is `dp[i][j]` in the source. -/
def dp (old new : List Block) (i j : Nat) : Nat :=
  dpRows old new i j

/-- The `i = 0` column of the backtracking loop: only inserts. -/
def btRow0 (new : List Block) : Nat → List DiffOp
  | 0 => []
  | j + 1 => btRow0 new j ++ [.insert (some "") (blockAt new j)]

/-- Row `i+1` of the backtracking loop as a function of `j`, given row `i`
(`prev`).  The dp comparisons mirror the source's
`dp[i][j-1] >= dp[i-1][j]` insert tie-break. -/
def btRowStep (old new : List Block) (i : Nat) (prev : Nat → List DiffOp) :
    Nat → List DiffOp
  | 0 => prev 0 ++ [.delete (bid (blockAt old i))]
  | j + 1 =>
    if blocksMatch (blockAt old i) (blockAt new j) then
      prev j ++ [.keep (bid (blockAt old i))]
    else if dp old new (i + 1) j ≥ dp old new i (j + 1) then
      btRowStep old new i prev j ++ [.insert (some "") (blockAt new j)]
    else
      prev (j + 1) ++ [.delete (bid (blockAt old i))]

/-- Rows of the backtracking loop. -/
def btRows (old new : List Block) : Nat → Nat → List DiffOp
  | 0 => btRow0 new
  | i + 1 => btRowStep old new i (btRows old new i)

/-- The backtracking loop of `diffBlocks`, producing the raw op list for the
prefixes `old[0..i)`, `new[0..j)` in document order (the source builds the
reversed list and reverses it; this recursion produces the same list). -/
def backtrack (old new : List Block) (i j : Nat) : List DiffOp :=
  btRows old new i j

theorem backtrack_zz (old new : List Block) : backtrack old new 0 0 = [] :=
  rfl

theorem backtrack_zs (old new : List Block) (j : Nat) :
    backtrack old new 0 (j + 1) =
      backtrack old new 0 j ++ [.insert (some "") (blockAt new j)] :=
  rfl

theorem backtrack_sz (old new : List Block) (i : Nat) :
    backtrack old new (i + 1) 0 =
      backtrack old new i 0 ++ [.delete (bid (blockAt old i))] :=
  rfl

theorem backtrack_ss (old new : List Block) (i j : Nat) :
    backtrack old new (i + 1) (j + 1) =
      if blocksMatch (blockAt old i) (blockAt new j) then
        backtrack old new i j ++ [.keep (bid (blockAt old i))]
      else if dp old new (i + 1) j ≥ dp old new i (j + 1) then
        backtrack old new (i + 1) j ++ [.insert (some "") (blockAt new j)]
      else
        backtrack old new i (j + 1) ++ [.delete (bid (blockAt old i))] :=
  rfl

/-- The merge pass of `diffBlocks`: an adjacent `delete` followed by `insert`
becomes one `update` when the block found in `old` by the deleted id has the
same type tag as the inserted block.  When no old block carries that id the
source evaluates `getBlockContent(undefined)` and throws a `TypeError`;
this is modelled by `Except.error`. -/
def mergePass (old : List Block) : List DiffOp → Except String (List DiffOp)
  | .delete i :: .insert a nb :: rest =>
    match old.find? (fun b => b.id == some i) with
    | none => .error "TypeError: getBlockContent of undefined"
    | some ob =>
      if (getBlockContent ob).type = (getBlockContent nb).type then
        (mergePass old rest).map (fun r => .update i nb :: r)
      else
        (mergePass old (.insert a nb :: rest)).map (fun r => .delete i :: r)
  | op :: rest => (mergePass old rest).map (fun r => op :: r)
  | [] => .ok []

/-- The anchor-resolution fold of `diffBlocks`, from a given
`lastOldBlockId` state. -/
def anchorGo (last : Option String) : List DiffOp → List DiffOp
  | [] => []
  | .keep i :: rest => .keep i :: anchorGo (some i) rest
  | .update i nb :: rest => .update i nb :: anchorGo (some i) rest
  | .delete i :: rest => .delete i :: anchorGo last rest
  | .insert _ nb :: rest => .insert last nb :: anchorGo last rest

/-- The anchor pass: each insert's `afterBlockId` becomes the most recent
`keep`/`update` block id, or `null` when none has been seen. -/
def anchorPass (ops : List DiffOp) : List DiffOp :=
  anchorGo none ops

/-- `diffBlocks(oldBlocks, newBlocks)`: LCS backtrack, merge pass, anchor
pass.  `Except.error` models the `TypeError` the merge pass can throw. -/
def diffBlocks (old new : List Block) : Except String (List DiffOp) :=
  (mergePass old (backtrack old new old.length new.length)).map anchorPass

/-! ### Sample blocks, mirroring the helpers of `diff.test.ts` -/

/-- A request-format paragraph block without id (martian output). -/
def pblk (text : String) : Block :=
  ⟨none, some "paragraph", [("paragraph", some [⟨none, some (some text)⟩])]⟩

/-- A response-format paragraph block with id. -/
def pblkId (text i : String) : Block :=
  ⟨some i, some "paragraph", [("paragraph", some [⟨some text, none⟩])]⟩

/-- A request-format heading-1 block without id. -/
def h1blk (text : String) : Block :=
  ⟨none, some "heading_1", [("heading_1", some [⟨none, some (some text)⟩])]⟩

/-- A response-format heading-1 block with id. -/
def h1blkId (text i : String) : Block :=
  ⟨some i, some "heading_1", [("heading_1", some [⟨some text, none⟩])]⟩

/-! ## Applying an op list (the spec's round-trip semantics)

The specification's round-trip law reads the op list as instructions on the
old block sequence: `keep` retains the matched block, `delete` removes the
block with that id, `update` replaces the payload of the block with that id
in place (the block keeps its remote id), `insert` places the new block
after its anchor — or at the head when the anchor is `null` — and a run of
consecutive inserts lands in emission order.  Inserted blocks receive fresh
remote identities, so they are never addressable by the ops' stored ids. -/

/-- One element of the page being rebuilt: its remote address (`none` for a
freshly inserted block, whose server-assigned id no op can mention) and its
current block value. -/
structure Slot where
  addr : Option String
  blk : Block
  deriving Repr, DecidableEq

/-- The slot an old block starts in: addressable by its id. -/
def slotOf (b : Block) : Slot := ⟨some (bid b), b⟩

/-- The initial page: each old block addressable by its id. -/
def initSlots (old : List Block) : List Slot :=
  old.map slotOf

/-- Remove the first slot addressed `x`; `none` when no slot is. -/
def removeAddr (x : String) : List Slot → Option (List Slot)
  | [] => none
  | s :: t =>
    if s.addr = some x then some t
    else (removeAddr x t).map (s :: ·)

/-- Replace in place the payload of the first slot addressed `x` (the slot
keeps its address); `none` when no slot is. -/
def replaceAddr (x : String) (nb : Block) : List Slot → Option (List Slot)
  | [] => none
  | s :: t =>
    if s.addr = some x then some (⟨some x, nb⟩ :: t)
    else (replaceAddr x nb t).map (s :: ·)

/-- Index of the first slot addressed `x`. -/
def findAddr (x : String) : List Slot → Option Nat
  | [] => none
  | s :: t =>
    if s.addr = some x then some 0
    else (findAddr x t).map (· + 1)

/-- Sequentially apply ops, tracking the position of the block inserted by
an immediately preceding insert so a run of consecutive inserts lands in
emission order; any other op resets that tracking.  `none` signals an
unresolvable id. -/
def applyGo : List Slot → Option Nat → List DiffOp → Option (List Slot)
  | slots, _, [] => some slots
  | slots, _, .keep _ :: rest => applyGo slots none rest
  | slots, _, .delete x :: rest =>
    (removeAddr x slots).bind (fun s => applyGo s none rest)
  | slots, _, .update x nb :: rest =>
    (replaceAddr x nb slots).bind (fun s => applyGo s none rest)
  | slots, lastIns, .insert a nb :: rest =>
    match lastIns with
    | some p => applyGo (slots.insertIdx (p + 1) ⟨none, nb⟩) (some (p + 1)) rest
    | none =>
      match a with
      | none => applyGo (⟨none, nb⟩ :: slots) (some 0) rest
      | some x =>
        match findAddr x slots with
        | none => none
        | some k => applyGo (slots.insertIdx (k + 1) ⟨none, nb⟩) (some (k + 1)) rest

/-- Apply an op list to the old page, as the spec's round-trip law reads
the ops. -/
def applyOpsSpec (old : List Block) (ops : List DiffOp) : Option (List Block) :=
  (applyGo (initSlots old) none ops).map (List.map Slot.blk)

/-! ## Structural facts about the differ -/

/-- Whether an op is an insert. -/
def DiffOp.isInsert : DiffOp → Bool
  | .insert _ _ => true
  | _ => false

/-- Whether an op is a delete. -/
def DiffOp.isDelete : DiffOp → Bool
  | .delete _ => true
  | _ => false

/-- Whether an op is a keep. -/
def DiffOp.isKeep : DiffOp → Bool
  | .keep _ => true
  | _ => false

/-- Whether an op is an update. -/
def DiffOp.isUpdate : DiffOp → Bool
  | .update _ _ => true
  | _ => false

/-- No insert is immediately followed by a delete.  The backtracking pass
never emits that pattern, and both later passes preserve its absence. -/
def NoID (ops : List DiffOp) : Prop :=
  ops.Chain' (fun x y => ¬(x.isInsert = true ∧ y.isDelete = true))

theorem blocksMatch_iff {a b : Block} :
    blocksMatch a b = true ↔ getBlockContent a = getBlockContent b := by
  simp [blocksMatch, beq_iff_eq]

theorem dp_zero_left (old new : List Block) (j : Nat) : dp old new 0 j = 0 :=
  rfl

theorem dp_zero_right (old new : List Block) (i : Nat) : dp old new i 0 = 0 := by
  cases i <;> rfl

theorem dp_succ_succ (old new : List Block) (i j : Nat) :
    dp old new (i + 1) (j + 1) =
      if blocksMatch (blockAt old i) (blockAt new j) then dp old new i j + 1
      else max (dp old new i (j + 1)) (dp old new (i + 1) j) :=
  rfl

/-- Joint step bound and monotonicity for the LCS table: one more column
raises the value by at most one, and one more row never lowers it. -/
theorem dp_step_mono (old new : List Block) :
    ∀ i, (∀ j, dp old new i (j + 1) ≤ dp old new i j + 1) ∧
      (∀ j, dp old new i j ≤ dp old new (i + 1) j) := by
  intro i
  induction i with
  | zero =>
    refine ⟨fun j => ?_, fun j => ?_⟩
    · simp [dp_zero_left]
    · simp [dp_zero_left]
  | succ i ih =>
    obtain ⟨S, M⟩ := ih
    have S' : ∀ j, dp old new (i + 1) (j + 1) ≤ dp old new (i + 1) j + 1 := by
      intro j
      rw [dp_succ_succ]
      split
      · exact Nat.add_le_add_right (M j) 1
      · refine max_le ?_ (Nat.le_succ _)
        exact le_trans (S j) (Nat.add_le_add_right (M j) 1)
    refine ⟨S', fun j => ?_⟩
    cases j with
    | zero => simp [dp_zero_right]
    | succ j =>
      rw [dp_succ_succ old new (i + 1) j]
      split
      · exact S' j
      · exact le_max_left _ _

theorem dp_mono_left (old new : List Block) (i j : Nat) :
    dp old new i j ≤ dp old new (i + 1) j :=
  (dp_step_mono old new i).2 j

/-- The shape of a raw edit script: it consumes the old list with
`keep`/`delete` ops and the new list with `keep`/`insert` ops, in document
order, keeping only matching pairs. -/
inductive RawScript : List Block → List Block → List DiffOp → Prop where
  | nil : RawScript [] [] []
  | keep {a b : Block} {as bs ops} : blocksMatch a b = true →
      RawScript as bs ops → RawScript (a :: as) (b :: bs) (.keep (bid a) :: ops)
  | ins {b : Block} {as bs ops} : RawScript as bs ops →
      RawScript as (b :: bs) (.insert (some "") b :: ops)
  | del {a : Block} {as bs ops} : RawScript as bs ops →
      RawScript (a :: as) bs (.delete (bid a) :: ops)

theorem RawScript.snocKeep {as bs ops} {a b : Block}
    (h : RawScript as bs ops) (hm : blocksMatch a b = true) :
    RawScript (as ++ [a]) (bs ++ [b]) (ops ++ [.keep (bid a)]) := by
  induction h with
  | nil => exact .keep hm .nil
  | keep hm' _ ih => exact .keep hm' ih
  | ins _ ih => exact .ins ih
  | del _ ih => exact .del ih

theorem RawScript.snocIns {as bs ops} {b : Block}
    (h : RawScript as bs ops) :
    RawScript as (bs ++ [b]) (ops ++ [.insert (some "") b]) := by
  induction h with
  | nil => exact .ins .nil
  | keep hm' _ ih => exact .keep hm' ih
  | ins _ ih => exact .ins ih
  | del _ ih => exact .del ih

theorem RawScript.snocDel {as bs ops} {a : Block}
    (h : RawScript as bs ops) :
    RawScript (as ++ [a]) bs (ops ++ [.delete (bid a)]) := by
  induction h with
  | nil => exact .del .nil
  | keep hm' _ ih => exact .keep hm' ih
  | ins _ ih => exact .ins ih
  | del _ ih => exact .del ih

theorem take_succ_blockAt {l : List Block} {k : Nat} (h : k < l.length) :
    l.take (k + 1) = l.take k ++ [blockAt l k] := by
  rw [List.take_succ]
  congr 1
  rw [List.getElem?_eq_getElem h]
  simp [blockAt, List.getD, List.getElem?_eq_getElem h]

/-- The backtracking pass produces a raw edit script for the prefixes. -/
theorem backtrack_raw (old new : List Block) :
    ∀ n i j, i + j ≤ n → i ≤ old.length → j ≤ new.length →
      RawScript (old.take i) (new.take j) (backtrack old new i j) := by
  intro n
  induction n with
  | zero =>
    intro i j hij hi hj
    obtain ⟨rfl, rfl⟩ : i = 0 ∧ j = 0 := by omega
    simpa [backtrack_zz] using RawScript.nil
  | succ n ih =>
    intro i j hij hi hj
    match i, j with
    | 0, 0 => simpa [backtrack_zz] using RawScript.nil
    | 0, j + 1 =>
      rw [backtrack_zs old new j]
      rw [take_succ_blockAt (Nat.lt_of_succ_le hj)]
      exact (ih 0 j (by omega) hi (by omega)).snocIns
    | i + 1, 0 =>
      rw [backtrack_sz old new i]
      rw [take_succ_blockAt (Nat.lt_of_succ_le hi)]
      exact (ih i 0 (by omega) (by omega) hj).snocDel
    | i + 1, j + 1 =>
      rw [backtrack_ss old new i j]
      split
      · rename_i hm
        rw [take_succ_blockAt (Nat.lt_of_succ_le hi),
          take_succ_blockAt (Nat.lt_of_succ_le hj)]
        exact (ih i j (by omega) (by omega) (by omega)).snocKeep hm
      · split
        · rw [take_succ_blockAt (Nat.lt_of_succ_le hj)]
          exact (ih (i + 1) j (by omega) hi (by omega)).snocIns
        · rw [take_succ_blockAt (Nat.lt_of_succ_le hi)]
          exact (ih i (j + 1) (by omega) (by omega) hj).snocDel

theorem isInsert_false_of_isDelete {op : DiffOp} (h : op.isDelete = true) :
    op.isInsert = false := by
  cases op <;> simp_all [DiffOp.isDelete, DiffOp.isInsert]

/-- In the `j = 0` column the backtracking pass emits only deletes. -/
theorem backtrack_j0 (old new : List Block) :
    ∀ i, ∀ op ∈ backtrack old new i 0, op.isDelete = true := by
  intro i
  induction i with
  | zero => simp [backtrack_zz]
  | succ i ih =>
    rw [backtrack_sz old new i]
    intro op hop
    rcases List.mem_append.1 hop with h | h
    · exact ih op h
    · simp only [List.mem_singleton] at h
      subst h; rfl

/-- When the backtracking pass is about to emit a delete for cell
`(i+1, j+1)`, the script computed for cell `(i, j+1)` cannot end in an
insert: the dp inequalities forbid it. -/
theorem backtrack_last_not_insert (old new : List Block) (i j : Nat)
    (h : dp old new (i + 1) j < dp old new i (j + 1)) :
    ∀ x ∈ (backtrack old new i (j + 1)).getLast?, x.isInsert = false := by
  match i with
  | 0 =>
    rw [dp_zero_left] at h
    omega
  | i + 1 =>
    rw [backtrack_ss old new i j]
    split
    · simp [List.getLast?_concat, DiffOp.isInsert]
    · rename_i hm
      split
      · rename_i c2
        exfalso
        rw [dp_succ_succ, if_neg hm] at h
        have hmono : dp old new (i + 1) j ≤ dp old new (i + 1 + 1) j :=
          dp_mono_left old new (i + 1) j
        have hlt : dp old new (i + 1) j <
            max (dp old new i (j + 1)) (dp old new (i + 1) j) :=
          lt_of_le_of_lt hmono h
        have : dp old new (i + 1) j < dp old new i (j + 1) :=
          (lt_max_iff.1 hlt).resolve_right (lt_irrefl _)
        exact absurd this (not_lt.2 c2)
      · simp [List.getLast?_concat, DiffOp.isInsert]

/-- The backtracking pass never emits an insert immediately followed by a
delete. -/
theorem backtrack_noID (old new : List Block) :
    ∀ n i j, i + j ≤ n → NoID (backtrack old new i j) := by
  intro n
  induction n with
  | zero =>
    intro i j hij
    obtain ⟨rfl, rfl⟩ : i = 0 ∧ j = 0 := by omega
    simp [backtrack_zz, NoID]
  | succ n ih =>
    intro i j hij
    match i, j with
    | 0, 0 => simp [backtrack_zz, NoID]
    | 0, j + 1 =>
      rw [backtrack_zs old new j]
      exact List.chain'_append.2 ⟨ih 0 j (by omega), List.chain'_singleton _,
        by simp [DiffOp.isDelete]⟩
    | i + 1, 0 =>
      rw [backtrack_sz old new i]
      refine List.chain'_append.2 ⟨ih i 0 (by omega), List.chain'_singleton _, ?_⟩
      intro x hx y hy hcon
      have hxmem : x ∈ backtrack old new i 0 := List.mem_of_mem_getLast? hx
      have := isInsert_false_of_isDelete (backtrack_j0 old new i x hxmem)
      simp_all
    | i + 1, j + 1 =>
      rw [backtrack_ss old new i j]
      split
      · exact List.chain'_append.2 ⟨ih i j (by omega), List.chain'_singleton _,
          by simp [DiffOp.isDelete]⟩
      · split
        · exact List.chain'_append.2 ⟨ih (i + 1) j (by omega),
            List.chain'_singleton _, by simp [DiffOp.isDelete]⟩
        · rename_i hm hcond
          refine List.chain'_append.2 ⟨ih i (j + 1) (by omega),
            List.chain'_singleton _, ?_⟩
          intro x hx y hy hcon
          have : x.isInsert = false :=
            backtrack_last_not_insert old new i j (by omega) x hx
          simp_all

theorem exceptMap_ok {α β ε : Type} {e : Except ε α} {f : α → β} {b : β} :
    e.map f = .ok b ↔ ∃ a, e = .ok a ∧ b = f a := by
  cases e <;> simp [Except.map]
  exact eq_comm

theorem NoID.tail {op : DiffOp} {l : List DiffOp} (h : NoID (op :: l)) :
    NoID l :=
  List.Chain'.tail h

theorem NoID.cons_not_insert {op : DiffOp} {l : List DiffOp}
    (hop : op.isInsert = false) (h : NoID l) : NoID (op :: l) :=
  List.chain'_cons'.2 ⟨fun _ _ hc => by simp [hop] at hc, h⟩

theorem NoID.head_not_delete {a : Option String} {nb : Block} {l : List DiffOp}
    (h : NoID (.insert a nb :: l)) : ∀ y ∈ l.head?, y.isDelete = false := by
  intro y hy
  have := (List.chain'_cons'.1 h).1 y hy
  simpa [DiffOp.isInsert] using this

/-- The shape of a merged edit script: a raw script in which some
delete-insert pairs have become updates. -/
inductive MScript : List Block → List Block → List DiffOp → Prop where
  | nil : MScript [] [] []
  | keep {a b : Block} {as bs ops} : blocksMatch a b = true →
      MScript as bs ops → MScript (a :: as) (b :: bs) (.keep (bid a) :: ops)
  | ins {b : Block} {x : Option String} {as bs ops} : MScript as bs ops →
      MScript as (b :: bs) (.insert x b :: ops)
  | del {a : Block} {as bs ops} : MScript as bs ops →
      MScript (a :: as) bs (.delete (bid a) :: ops)
  | upd {a b : Block} {as bs ops} : MScript as bs ops →
      MScript (a :: as) (b :: bs) (.update (bid a) b :: ops)

theorem mergePass_head_not_delete (old : List Block) :
    ∀ ops r, mergePass old ops = .ok r →
      (∀ y ∈ ops.head?, y.isDelete = false) → ∀ y ∈ r.head?, y.isDelete = false := by
  intro ops r hmp hh
  match ops with
  | [] =>
    simp only [mergePass] at hmp
    cases hmp
    simp
  | .keep k :: rest =>
    simp only [mergePass] at hmp
    obtain ⟨r', _, rfl⟩ := exceptMap_ok.1 hmp
    simp [DiffOp.isDelete]
  | .insert a nb :: rest =>
    simp only [mergePass] at hmp
    obtain ⟨r', _, rfl⟩ := exceptMap_ok.1 hmp
    simp [DiffOp.isDelete]
  | .update i nb :: rest =>
    simp only [mergePass] at hmp
    obtain ⟨r', _, rfl⟩ := exceptMap_ok.1 hmp
    simp [DiffOp.isDelete]
  | .delete i :: rest =>
    have := hh (.delete i) (by simp)
    simp [DiffOp.isDelete] at this

/-- The merge pass succeeds (every deleted id is carried by some old block),
and its output is a merged script that still has no insert-before-delete. -/
theorem merge_main (old : List Block) :
    ∀ n ops as bs, ops.length ≤ n → RawScript as bs ops →
      (∀ a ∈ as, ∃ b ∈ old, b.id = some (bid a)) → NoID ops →
      ∃ merged, mergePass old ops = .ok merged ∧ MScript as bs merged ∧
        NoID merged := by
  intro n
  induction n with
  | zero =>
    intro ops as bs hlen hr hids hnoid
    have : ops = [] := List.length_eq_zero.1 (Nat.le_zero.1 hlen)
    subst this
    cases hr
    exact ⟨[], by simp [mergePass], .nil, by simp [NoID]⟩
  | succ n ih =>
    intro ops as bs hlen hr hids hnoid
    cases hr with
    | nil => exact ⟨[], by simp [mergePass], .nil, by simp [NoID]⟩
    | keep hm hr' =>
      rename_i a b as' bs' ops'
      obtain ⟨m', hmp', hms', hnoid'⟩ := ih ops' as' bs' (by simpa using hlen)
        hr' (fun x hx => hids x (List.mem_cons_of_mem _ hx)) hnoid.tail
      refine ⟨.keep (bid a) :: m', ?_, .keep hm hms', ?_⟩
      · simp only [mergePass, hmp', Except.map]
      · exact hnoid'.cons_not_insert (by simp [DiffOp.isInsert])
    | ins hr' =>
      rename_i b bs' ops'
      obtain ⟨m', hmp', hms', hnoid'⟩ := ih ops' as bs' (by simpa using hlen)
        hr' hids hnoid.tail
      refine ⟨.insert (some "") b :: m', ?_, .ins hms', ?_⟩
      · simp only [mergePass, hmp', Except.map]
      · refine List.chain'_cons'.2 ⟨?_, hnoid'⟩
        intro y hy hc
        exact absurd (mergePass_head_not_delete old ops' m' hmp'
          (hnoid.head_not_delete) y hy) (by simp [hc.2])
    | del hr' =>
      rename_i a as' ops'
      have hfind : ∃ ob, old.find? (fun b => b.id == some (bid a)) = some ob := by
        obtain ⟨b, hb, hid⟩ := hids a (by simp)
        have : (old.find? (fun b => b.id == some (bid a))).isSome :=
          List.find?_isSome.2 ⟨b, hb, by simp [hid]⟩
        exact Option.isSome_iff_exists.1 this
      obtain ⟨ob, hob⟩ := hfind
      cases hr' with
      | nil =>
        exact ⟨[.delete (bid a)], by simp [mergePass, Except.map], .del .nil,
          by simp [NoID]⟩
      | keep hm2 hr'' =>
        rename_i a2 b2 as2 bs2 ops2
        obtain ⟨m', hmp', hms', hnoid'⟩ := ih _ _ _ (by simp at hlen ⊢; omega)
          (RawScript.keep hm2 hr'')
          (fun x hx => hids x (List.mem_cons_of_mem _ hx)) hnoid.tail
        refine ⟨.delete (bid a) :: m', ?_, .del hms', ?_⟩
        · rw [show mergePass old (.delete (bid a) :: .keep (bid a2) :: ops2) =
            (mergePass old (.keep (bid a2) :: ops2)).map
              (fun r => .delete (bid a) :: r) from rfl, hmp']
          rfl
        · exact hnoid'.cons_not_insert (by simp [DiffOp.isInsert])
      | ins hr'' =>
        rename_i b2 bs2 ops2
        -- the delete-insert pair: merge or keep apart by type equality
        by_cases hty : (getBlockContent ob).type = (getBlockContent b2).type
        · obtain ⟨m', hmp', hms', hnoid'⟩ := ih ops2 as' bs2
            (by simp at hlen ⊢; omega) hr''
            (fun x hx => hids x (List.mem_cons_of_mem _ hx))
            hnoid.tail.tail
          refine ⟨.update (bid a) b2 :: m', ?_, .upd hms', ?_⟩
          · simp only [mergePass, hob, hty, if_true, hmp', Except.map]
          · exact hnoid'.cons_not_insert (by simp [DiffOp.isInsert])
        · obtain ⟨m', hmp', hms', hnoid'⟩ := ih (.insert (some "") b2 :: ops2)
            as' (b2 :: bs2) (by simpa using hlen) (RawScript.ins hr'')
            (fun x hx => hids x (List.mem_cons_of_mem _ hx)) hnoid.tail
          refine ⟨.delete (bid a) :: m', ?_, .del hms', ?_⟩
          · have h0 : mergePass old (.delete (bid a) :: .insert (some "") b2 :: ops2) =
                (mergePass old (.insert (some "") b2 :: ops2)).map
                  (fun r => .delete (bid a) :: r) := by
              rw [show mergePass old
                  (.delete (bid a) :: .insert (some "") b2 :: ops2) =
                (match old.find? (fun b => b.id == some (bid a)) with
                | none =>
                  (.error "TypeError: getBlockContent of undefined" :
                    Except String (List DiffOp))
                | some ob =>
                  if (getBlockContent ob).type = (getBlockContent b2).type then
                    (mergePass old ops2).map (fun r => .update (bid a) b2 :: r)
                  else
                    (mergePass old (.insert (some "") b2 :: ops2)).map
                      (fun r => .delete (bid a) :: r)) from rfl, hob]
              exact if_neg hty
            rw [h0, hmp']
            rfl
          · exact hnoid'.cons_not_insert (by simp [DiffOp.isInsert])
      | del hr'' =>
        rename_i a2 as2 ops2
        obtain ⟨m', hmp', hms', hnoid'⟩ := ih _ _ _ (by simp at hlen ⊢; omega)
          (RawScript.del hr'')
          (fun x hx => hids x (List.mem_cons_of_mem _ hx)) hnoid.tail
        refine ⟨.delete (bid a) :: m', ?_, .del hms', ?_⟩
        · simp only [mergePass, hmp', Except.map]
        · exact hnoid'.cons_not_insert (by simp [DiffOp.isInsert])

/-- The shape of a fully anchored script, as the apply semantics consumes
it.  The boolean flag is true directly after an insert; a delete may occur
only when the flag is false (no insert-before-delete), and each insert
carries exactly the ambient anchor: the id of the most recent keep/update,
`none` before any. -/
inductive Rest : Bool → Option String → List Block → List Block →
    List DiffOp → Prop where
  | nil {f anc} : Rest f anc [] [] []
  | keep {f anc} {a b : Block} {as bs ops} : blocksMatch a b = true →
      Rest false (some (bid a)) as bs ops →
      Rest f anc (a :: as) (b :: bs) (.keep (bid a) :: ops)
  | del {anc} {a : Block} {as bs ops} : Rest false anc as bs ops →
      Rest false anc (a :: as) bs (.delete (bid a) :: ops)
  | upd {f anc} {a b : Block} {as bs ops} :
      Rest false (some (bid a)) as bs ops →
      Rest f anc (a :: as) (b :: bs) (.update (bid a) b :: ops)
  | ins {f anc} {b : Block} {as bs ops} : Rest true anc as bs ops →
      Rest f anc as (b :: bs) (.insert anc b :: ops)

/-- Head-of-list not a delete. -/
def HnD (ops : List DiffOp) : Prop :=
  ∀ y ∈ ops.head?, y.isDelete = false

/-- The anchor pass turns a merged script with no insert-before-delete into
a fully anchored script. -/
theorem anchor_rest :
    ∀ {as bs ops}, MScript as bs ops → NoID ops →
      ∀ f anc, (f = true → HnD ops) → Rest f anc as bs (anchorGo anc ops) := by
  intro as bs ops h
  induction h with
  | nil =>
    intro _ f anc _
    exact .nil
  | keep hm _ ih =>
    intro hnoid f anc _
    exact .keep hm (ih hnoid.tail false _ (by simp))
  | ins _ ih =>
    intro hnoid f anc _
    exact .ins (ih hnoid.tail true anc (fun _ => hnoid.head_not_delete))
  | del _ ih =>
    intro hnoid f anc hf
    cases f with
    | true =>
      have := hf rfl
      simp [HnD, DiffOp.isDelete] at this
    | false =>
      exact .del (ih hnoid.tail false anc (by simp))
  | upd _ ih =>
    intro hnoid f anc _
    exact .upd (ih hnoid.tail false _ (by simp))

/-! ### Simulation: applying a well-anchored script rebuilds the new list -/

theorem removeAddr_skip (x : String) (s : Slot) (t : List Slot) :
    ∀ d : List Slot, (∀ s' ∈ d, s'.addr ≠ some x) → s.addr = some x →
      removeAddr x (d ++ s :: t) = some (d ++ t) := by
  intro d
  induction d with
  | nil =>
    intro _ hs
    simp [removeAddr, hs]
  | cons s' d ih =>
    intro hd hs
    have hne : s'.addr ≠ some x := hd s' (by simp)
    simp only [List.cons_append, removeAddr, if_neg hne, List.append_eq]
    rw [ih (fun a ha => hd a (by simp [ha])) hs]
    rfl

theorem replaceAddr_skip (x : String) (nb : Block) (s : Slot) (t : List Slot) :
    ∀ d : List Slot, (∀ s' ∈ d, s'.addr ≠ some x) → s.addr = some x →
      replaceAddr x nb (d ++ s :: t) = some (d ++ ⟨some x, nb⟩ :: t) := by
  intro d
  induction d with
  | nil =>
    intro _ hs
    simp [replaceAddr, hs]
  | cons s' d ih =>
    intro hd hs
    have hne : s'.addr ≠ some x := hd s' (by simp)
    simp only [List.cons_append, replaceAddr, if_neg hne, List.append_eq]
    rw [ih (fun a ha => hd a (by simp [ha])) hs]
    rfl

theorem findAddr_skip (x : String) (s : Slot) (t : List Slot) :
    ∀ d : List Slot, (∀ s' ∈ d, s'.addr ≠ some x) → s.addr = some x →
      findAddr x (d ++ s :: t) = some d.length := by
  intro d
  induction d with
  | nil =>
    intro _ hs
    simp [findAddr, hs]
  | cons s' d ih =>
    intro hd hs
    have hne : s'.addr ≠ some x := hd s' (by simp)
    simp only [List.cons_append, findAddr, if_neg hne, List.length_cons, List.append_eq]
    rw [ih (fun a ha => hd a (by simp [ha])) hs]
    rfl

theorem insertIdx_boundary {α : Type} (y : α) :
    ∀ (d t : List α), (d ++ t).insertIdx d.length y = d ++ y :: t := by
  intro d
  induction d with
  | nil => intro t; simp
  | cons a d ih =>
    intro t
    simp only [List.cons_append, List.length_cons, List.insertIdx_succ_cons,
      ih t]

/-- The position the next anchored insert must land at: the anchor is the
address of the last element of the rebuilt prefix (`none` iff the prefix is
empty), and no earlier element of the prefix carries that address. -/
def AnchorInv : Option String → List Slot → Prop
  | none, done => done = []
  | some x, done =>
    ∃ d₁ s, done = d₁ ++ [s] ∧ s.addr = some x ∧ ∀ s' ∈ d₁, s'.addr ≠ some x

/-- Applying a well-anchored script to the rebuilt prefix plus the
untouched old suffix succeeds and appends exactly the remaining new
contents. -/
theorem rest_apply :
    ∀ {flag anc pOld pNew R}, Rest flag anc pOld pNew R →
    ∀ done lastIns,
      (∀ s ∈ done, ∀ b ∈ pOld, s.addr ≠ some (bid b)) →
      (pOld.map bid).Nodup →
      (flag = false → lastIns = none ∧ AnchorInv anc done) →
      (flag = true → ∃ p, lastIns = some p ∧ p + 1 = done.length) →
      ∃ final, applyGo (done ++ pOld.map slotOf) lastIns R = some final ∧
        final.map (fun s => getBlockContent s.blk) =
          done.map (fun s => getBlockContent s.blk) ++ pNew.map getBlockContent := by
  intro flag anc pOld pNew R h
  induction h with
  | nil =>
    intro done lastIns _ _ _ _
    exact ⟨done, by simp [applyGo], by simp⟩
  | @keep f anc a b as bs ops hm _ ih =>
    intro done lastIns hsep hnd hf0 hf1
    have hstep : applyGo (done ++ (a :: as).map slotOf) lastIns
        (.keep (bid a) :: ops) =
        applyGo ((done ++ [slotOf a]) ++ as.map slotOf) none ops := by
      simp [applyGo]
    rw [hstep]
    have hnd2 := List.nodup_cons.1 (List.map_cons bid a as ▸ hnd)
    have hbidne : ∀ b' ∈ as, bid a ≠ bid b' :=
      fun b' hb' hco => hnd2.1 (hco ▸ List.mem_map_of_mem bid hb')
    obtain ⟨final, happ, htrace⟩ := ih (done ++ [slotOf a]) none
      (by
        intro s hs b' hb'
        rcases List.mem_append.1 hs with hs | hs
        · exact hsep s hs b' (List.mem_cons_of_mem _ hb')
        · simp only [List.mem_singleton] at hs
          subst hs
          simpa [slotOf] using fun hco => hbidne b' hb' hco)
      hnd2.2
      (fun _ => ⟨rfl, done, slotOf a, rfl, rfl,
        fun s' hs' => hsep s' hs' a (by simp)⟩)
      (by simp)
    refine ⟨final, happ, ?_⟩
    rw [htrace]
    have hgc : getBlockContent a = getBlockContent b := blocksMatch_iff.1 hm
    simp [slotOf, hgc]
  | @del anc a as bs ops _ ih =>
    intro done lastIns hsep hnd hf0 hf1
    have hdone : ∀ s' ∈ done, s'.addr ≠ some (bid a) :=
      fun s' hs' => hsep s' hs' a (by simp)
    have hstep : applyGo (done ++ (a :: as).map slotOf) lastIns
        (.delete (bid a) :: ops) =
        applyGo (done ++ as.map slotOf) none ops := by
      have hrem := removeAddr_skip (bid a) (slotOf a) (as.map slotOf) done
        hdone rfl
      simp [applyGo, List.map_cons, hrem]
    rw [hstep]
    exact ih done none
      (fun s hs b' hb' => hsep s hs b' (List.mem_cons_of_mem _ hb'))
      (List.nodup_cons.1 (List.map_cons bid a as ▸ hnd)).2
      (fun _ => ⟨rfl, (hf0 rfl).2⟩)
      (by simp)
  | @upd f anc a b as bs ops _ ih =>
    intro done lastIns hsep hnd hf0 hf1
    have hdone : ∀ s' ∈ done, s'.addr ≠ some (bid a) :=
      fun s' hs' => hsep s' hs' a (by simp)
    have hstep : applyGo (done ++ (a :: as).map slotOf) lastIns
        (.update (bid a) b :: ops) =
        applyGo ((done ++ [(⟨some (bid a), b⟩ : Slot)]) ++ as.map slotOf)
          none ops := by
      have hrep := replaceAddr_skip (bid a) b (slotOf a) (as.map slotOf) done
        hdone rfl
      simp [applyGo, List.map_cons, hrep]
    rw [hstep]
    have hnd2 := List.nodup_cons.1 (List.map_cons bid a as ▸ hnd)
    have hbidne : ∀ b' ∈ as, bid a ≠ bid b' :=
      fun b' hb' hco => hnd2.1 (hco ▸ List.mem_map_of_mem bid hb')
    obtain ⟨final, happ, htrace⟩ := ih (done ++ [⟨some (bid a), b⟩]) none
      (by
        intro s hs b' hb'
        rcases List.mem_append.1 hs with hs | hs
        · exact hsep s hs b' (List.mem_cons_of_mem _ hb')
        · simp only [List.mem_singleton] at hs
          subst hs
          simpa using fun hco => hbidne b' hb' hco)
      hnd2.2
      (fun _ => ⟨rfl, done, ⟨some (bid a), b⟩, rfl, rfl,
        fun s' hs' => hsep s' hs' a (by simp)⟩)
      (by simp)
    refine ⟨final, happ, ?_⟩
    rw [htrace]
    simp
  | @ins f anc b as bs ops _ ih =>
    intro done lastIns hsep hnd hf0 hf1
    cases f with
    | false =>
      obtain ⟨hli, hai⟩ := hf0 rfl
      subst hli
      cases anc with
      | none =>
        have hdone : done = [] := hai
        subst hdone
        have hstep : applyGo (([] : List Slot) ++ as.map slotOf) none
            (.insert none b :: ops) =
            applyGo (([(⟨none, b⟩ : Slot)]) ++ as.map slotOf) (some 0) ops := by
          simp [applyGo]
        rw [hstep]
        obtain ⟨final, happ, htrace⟩ := ih [⟨none, b⟩] (some 0)
          (by
            intro s hs b' hb'
            simp only [List.mem_singleton] at hs
            subst hs
            simp)
          hnd
          (by simp)
          (fun _ => ⟨0, rfl, by simp⟩)
        exact ⟨final, happ, by simpa using htrace⟩
      | some x =>
        obtain ⟨d₁, s, hdone, hsx, hd₁⟩ := hai
        have hfind : findAddr x (done ++ as.map slotOf) = some d₁.length := by
          rw [hdone, List.append_assoc, List.singleton_append]
          exact findAddr_skip x s (as.map slotOf) d₁ hd₁ hsx
        have hlen : d₁.length + 1 = done.length := by
          rw [hdone]; simp
        have hstep : applyGo (done ++ as.map slotOf) none
            (.insert (some x) b :: ops) =
            applyGo ((done ++ [(⟨none, b⟩ : Slot)]) ++ as.map slotOf)
              (some (d₁.length + 1)) ops := by
          have hins : (done ++ as.map slotOf).insertIdx (d₁.length + 1)
              (⟨none, b⟩ : Slot) = (done ++ [(⟨none, b⟩ : Slot)]) ++ as.map slotOf := by
            rw [hlen, insertIdx_boundary]
            simp
          simp [applyGo, hfind, hins]
        rw [hstep]
        obtain ⟨final, happ, htrace⟩ := ih (done ++ [⟨none, b⟩])
          (some (d₁.length + 1))
          (by
            intro s' hs' b' hb'
            rcases List.mem_append.1 hs' with hs' | hs'
            · exact hsep s' hs' b' hb'
            · simp only [List.mem_singleton] at hs'
              subst hs'
              simp)
          hnd
          (by simp)
          (fun _ => ⟨d₁.length + 1, rfl, by simp [hlen]⟩)
        refine ⟨final, happ, ?_⟩
        rw [htrace]
        simp
    | true =>
      obtain ⟨p, hli, hp⟩ := hf1 rfl
      subst hli
      have hstep : applyGo (done ++ as.map slotOf) (some p)
          (.insert anc b :: ops) =
          applyGo ((done ++ [(⟨none, b⟩ : Slot)]) ++ as.map slotOf)
            (some (p + 1)) ops := by
        have hins : (done ++ as.map slotOf).insertIdx (p + 1)
            (⟨none, b⟩ : Slot) = (done ++ [(⟨none, b⟩ : Slot)]) ++ as.map slotOf := by
          rw [hp, insertIdx_boundary]
          simp
        simp [applyGo, hins]
      rw [hstep]
      obtain ⟨final, happ, htrace⟩ := ih (done ++ [⟨none, b⟩]) (some (p + 1))
        (by
          intro s' hs' b' hb'
          rcases List.mem_append.1 hs' with hs' | hs'
          · exact hsep s' hs' b' hb'
          · simp only [List.mem_singleton] at hs'
            subst hs'
            simp)
        hnd
        (by simp)
        (fun _ => ⟨p + 1, rfl, by simp [hp]⟩)
      refine ⟨final, happ, ?_⟩
      rw [htrace]
      simp

end NotionSync

namespace NotionSync

/-- Under present old-block ids, the merge pass cannot throw: `diffBlocks`
is total. -/
theorem diffBlocks_ok (old new : List Block)
    (hids : ∀ b ∈ old, b.id.isSome) :
    ∃ ops, diffBlocks old new = .ok ops := by
  have hraw : RawScript old new (backtrack old new old.length new.length) := by
    have := backtrack_raw old new (old.length + new.length) old.length
      new.length le_rfl le_rfl le_rfl
    simpa using this
  have hids' : ∀ a ∈ old, ∃ b ∈ old, b.id = some (bid a) := by
    intro a ha
    obtain ⟨s, hs⟩ := Option.isSome_iff_exists.1 (hids a ha)
    exact ⟨a, ha, by simp [bid, hs]⟩
  obtain ⟨merged, hmp, _, _⟩ := merge_main old
    (backtrack old new old.length new.length).length _ old new le_rfl hraw
    hids' (backtrack_noID old new (old.length + new.length) _ _ le_rfl)
  exact ⟨anchorPass merged, by simp [diffBlocks, hmp, Except.map]⟩

/-- Round trip of the differ: for old block lists whose blocks all carry
pairwise-distinct ids, applying the computed op list to `old` (with the
spec's keep/delete/update/insert reading) rebuilds a list whose contents
equal `new` element-wise under the match predicate. -/
theorem diffBlocks_roundtrip_aux (old new : List Block)
    (hids : ∀ b ∈ old, b.id.isSome)
    (hnodup : (old.map bid).Nodup) :
    ∃ ops res, diffBlocks old new = .ok ops ∧ applyOpsSpec old ops = some res ∧
      res.map getBlockContent = new.map getBlockContent := by
  have hraw : RawScript old new (backtrack old new old.length new.length) := by
    have := backtrack_raw old new (old.length + new.length) old.length
      new.length le_rfl le_rfl le_rfl
    simpa using this
  have hids' : ∀ a ∈ old, ∃ b ∈ old, b.id = some (bid a) := by
    intro a ha
    obtain ⟨s, hs⟩ := Option.isSome_iff_exists.1 (hids a ha)
    exact ⟨a, ha, by simp [bid, hs]⟩
  obtain ⟨merged, hmp, hms, hnoid⟩ := merge_main old
    (backtrack old new old.length new.length).length _ old new le_rfl hraw
    hids' (backtrack_noID old new (old.length + new.length) _ _ le_rfl)
  have hrest : Rest false none old new (anchorGo none merged) :=
    anchor_rest hms hnoid false none (by simp)
  obtain ⟨final, happ, htrace⟩ := rest_apply hrest [] none
    (by simp) hnodup (fun _ => ⟨rfl, rfl⟩) (by simp)
  refine ⟨anchorPass merged, final.map Slot.blk,
    by simp [diffBlocks, hmp, Except.map], ?_, ?_⟩
  · simp only [applyOpsSpec, initSlots, anchorPass]
    rw [show (List.map slotOf old) = [] ++ List.map slotOf old by simp, happ]
    rfl
  · rw [List.map_map]
    simpa using htrace

end NotionSync

namespace NotionSync

/-- Raw scripts contain no update ops. -/
theorem RawScript.no_update {as bs ops} (h : RawScript as bs ops) :
    ∀ op ∈ ops, op.isUpdate = false := by
  induction h with
  | nil => simp
  | keep _ _ ih =>
    intro op hop
    rcases List.mem_cons.1 hop with rfl | hop
    · rfl
    · exact ih op hop
  | ins _ ih =>
    intro op hop
    rcases List.mem_cons.1 hop with rfl | hop
    · rfl
    · exact ih op hop
  | del _ ih =>
    intro op hop
    rcases List.mem_cons.1 hop with rfl | hop
    · rfl
    · exact ih op hop

theorem mergePass_head_not_insert (old : List Block) :
    ∀ ops r, mergePass old ops = .ok r →
      (∀ y ∈ ops.head?, y.isInsert = false) → ∀ y ∈ r.head?, y.isInsert = false := by
  intro ops r hmp hh
  match ops with
  | [] =>
    simp only [mergePass] at hmp
    cases hmp
    simp
  | .keep k :: rest =>
    simp only [mergePass] at hmp
    obtain ⟨r', _, rfl⟩ := exceptMap_ok.1 hmp
    simp [DiffOp.isInsert]
  | .insert a nb :: rest =>
    have := hh (.insert a nb) (by simp)
    simp [DiffOp.isInsert] at this
  | .update i nb :: rest =>
    simp only [mergePass] at hmp
    obtain ⟨r', _, rfl⟩ := exceptMap_ok.1 hmp
    simp [DiffOp.isInsert]
  | .delete i :: [] =>
    simp only [mergePass] at hmp
    obtain ⟨r', _, rfl⟩ := exceptMap_ok.1 hmp
    simp [DiffOp.isInsert]
  | .delete i :: .keep k :: rest =>
    simp only [mergePass] at hmp
    obtain ⟨r', _, rfl⟩ := exceptMap_ok.1 hmp
    simp [DiffOp.isInsert]
  | .delete i :: .delete i2 :: rest =>
    simp only [mergePass] at hmp
    obtain ⟨r', _, rfl⟩ := exceptMap_ok.1 hmp
    simp [DiffOp.isInsert]
  | .delete i :: .update u nb :: rest =>
    simp only [mergePass] at hmp
    obtain ⟨r', _, rfl⟩ := exceptMap_ok.1 hmp
    simp [DiffOp.isInsert]
  | .delete i :: .insert a nb :: rest =>
    simp only [mergePass] at hmp
    cases hfind : old.find? (fun b => b.id == some i) with
    | none =>
      simp only [hfind] at hmp
      simp at hmp
    | some ob =>
      simp only [hfind] at hmp
      split at hmp
      all_goals
        obtain ⟨r', _, rfl⟩ := exceptMap_ok.1 hmp
        simp [DiffOp.isInsert]

end NotionSync

namespace NotionSync

theorem head?_eq_getElem0 {α : Type} (l : List α) : l.head? = l[0]? := by
  cases l <;> simp

/-- Every update in the merge pass's output was created by the merge with
the type-equality check: the old block found by its id has the inserted
block's type tag. -/
theorem mergePass_update_types (old : List Block) :
    ∀ (n : Nat) (ops r : List DiffOp), ops.length ≤ n → mergePass old ops = .ok r →
      (∀ op ∈ ops, op.isUpdate = false) →
      ∀ (k : Nat) (i : String) (nb : Block), r[k]? = some (.update i nb) →
        ∃ ob, old.find? (fun b => b.id == some i) = some ob ∧
          (getBlockContent ob).type = (getBlockContent nb).type := by
  intro n
  induction n with
  | zero =>
    intro ops r hlen hmp hnu k i nb hk
    have : ops = [] := List.length_eq_zero.1 (Nat.le_zero.1 hlen)
    subst this
    simp only [mergePass] at hmp
    cases hmp
    simp at hk
  | succ n ih =>
    intro ops r hlen hmp hnu k i nb hk
    match ops with
    | [] =>
      simp only [mergePass] at hmp
      cases hmp
      simp at hk
    | .keep k0 :: rest =>
      simp only [mergePass] at hmp
      obtain ⟨r', hmp', rfl⟩ := exceptMap_ok.1 hmp
      match k, hk with
      | 0, hk => simp at hk
      | k + 1, hk =>
        exact ih rest r' (by simpa using hlen) hmp'
          (fun op hop => hnu op (by simp [hop])) k i nb (by simpa using hk)
    | .insert a0 nb0 :: rest =>
      simp only [mergePass] at hmp
      obtain ⟨r', hmp', rfl⟩ := exceptMap_ok.1 hmp
      match k, hk with
      | 0, hk => simp at hk
      | k + 1, hk =>
        exact ih rest r' (by simpa using hlen) hmp'
          (fun op hop => hnu op (by simp [hop])) k i nb (by simpa using hk)
    | .update u nb0 :: rest =>
      have := hnu (.update u nb0) (by simp)
      simp [DiffOp.isUpdate] at this
    | .delete i0 :: [] =>
      simp only [mergePass] at hmp
      obtain ⟨r', hmp', rfl⟩ := exceptMap_ok.1 hmp
      injection hmp' with h
      subst h
      match k, hk with
      | 0, hk => simp at hk
      | k + 1, hk => simp at hk
    | .delete i0 :: .keep k0 :: rest =>
      simp only [mergePass] at hmp
      obtain ⟨r', hmp', rfl⟩ := exceptMap_ok.1 hmp
      match k, hk with
      | 0, hk => simp at hk
      | k + 1, hk =>
        exact ih (.keep k0 :: rest) r' (by simpa using hlen)
          (by simp only [mergePass]; exact hmp')
          (fun op hop => hnu op (by simp [List.mem_cons.1 hop])) k i nb
          (by simpa using hk)
    | .delete i0 :: .delete i1 :: rest =>
      simp only [mergePass] at hmp
      obtain ⟨r', hmp', rfl⟩ := exceptMap_ok.1 hmp
      match k, hk with
      | 0, hk => simp at hk
      | k + 1, hk =>
        exact ih (.delete i1 :: rest) r' (by simpa using hlen) hmp'
          (fun op hop => hnu op (by simp [List.mem_cons.1 hop])) k i nb
          (by simpa using hk)
    | .delete i0 :: .update u nb0 :: rest =>
      have := hnu (.update u nb0) (by simp)
      simp [DiffOp.isUpdate] at this
    | .delete i0 :: .insert a0 nb0 :: rest =>
      simp only [mergePass] at hmp
      cases hfind : old.find? (fun b => b.id == some i0) with
      | none =>
        simp only [hfind] at hmp
        simp at hmp
      | some ob =>
        simp only [hfind] at hmp
        split at hmp
        · rename_i hty
          obtain ⟨r', hmp', rfl⟩ := exceptMap_ok.1 hmp
          match k, hk with
          | 0, hk =>
            simp only [List.getElem?_cons_zero, Option.some.injEq,
              DiffOp.update.injEq] at hk
            obtain ⟨rfl, rfl⟩ := hk
            exact ⟨ob, hfind, hty⟩
          | k + 1, hk =>
            exact ih rest r' (by simp at hlen ⊢; omega) hmp'
              (fun op hop => hnu op (by simp [hop])) k i nb (by simpa using hk)
        · rename_i hty
          obtain ⟨r', hmp', rfl⟩ := exceptMap_ok.1 hmp
          obtain ⟨r'', hmp'', rfl⟩ := exceptMap_ok.1 hmp'
          match k, hk with
          | 0, hk => simp at hk
          | 1, hk => simp at hk
          | k + 2, hk =>
            exact ih rest r'' (by simp at hlen ⊢; omega) hmp''
              (fun op hop => hnu op (by simp [hop])) k i nb (by simpa using hk)

end NotionSync

namespace NotionSync

/-- Every delete immediately followed by an insert that survives the merge
pass does so because the found old block's type tag differs from the
inserted block's. -/
theorem mergePass_delins_types (old : List Block) :
    ∀ (n : Nat) (ops r : List DiffOp), ops.length ≤ n → mergePass old ops = .ok r →
      ∀ (k : Nat) (i : String) (a : Option String) (nb : Block),
        r[k]? = some (.delete i) → r[k + 1]? = some (.insert a nb) →
        ∃ ob, old.find? (fun b => b.id == some i) = some ob ∧
          (getBlockContent ob).type ≠ (getBlockContent nb).type := by
  intro n
  induction n with
  | zero =>
    intro ops r hlen hmp k i a nb hk hk1
    have : ops = [] := List.length_eq_zero.1 (Nat.le_zero.1 hlen)
    subst this
    simp only [mergePass] at hmp
    cases hmp
    simp at hk
  | succ n ih =>
    intro ops r hlen hmp k i a nb hk hk1
    match ops with
    | [] =>
      simp only [mergePass] at hmp
      cases hmp
      simp at hk
    | .keep k0 :: rest =>
      simp only [mergePass] at hmp
      obtain ⟨r', hmp', rfl⟩ := exceptMap_ok.1 hmp
      match k, hk, hk1 with
      | 0, hk, _ => simp at hk
      | k + 1, hk, hk1 =>
        exact ih rest r' (by simpa using hlen) hmp' k i a nb
          (by simpa using hk) (by simpa using hk1)
    | .insert a0 nb0 :: rest =>
      simp only [mergePass] at hmp
      obtain ⟨r', hmp', rfl⟩ := exceptMap_ok.1 hmp
      match k, hk, hk1 with
      | 0, hk, _ => simp at hk
      | k + 1, hk, hk1 =>
        exact ih rest r' (by simpa using hlen) hmp' k i a nb
          (by simpa using hk) (by simpa using hk1)
    | .update u nb0 :: rest =>
      simp only [mergePass] at hmp
      obtain ⟨r', hmp', rfl⟩ := exceptMap_ok.1 hmp
      match k, hk, hk1 with
      | 0, hk, _ => simp at hk
      | k + 1, hk, hk1 =>
        exact ih rest r' (by simpa using hlen) hmp' k i a nb
          (by simpa using hk) (by simpa using hk1)
    | .delete i0 :: [] =>
      simp only [mergePass] at hmp
      obtain ⟨r', hmp', rfl⟩ := exceptMap_ok.1 hmp
      injection hmp' with h
      subst h
      match k, hk, hk1 with
      | 0, _, hk1 => simp at hk1
      | k + 1, hk, _ => simp at hk
    | .delete i0 :: .keep k0 :: rest =>
      simp only [mergePass] at hmp
      obtain ⟨r', hmp', rfl⟩ := exceptMap_ok.1 hmp
      obtain ⟨r'', hmp'', rfl⟩ := exceptMap_ok.1 hmp'
      match k, hk, hk1 with
      | 0, _, hk1 => simp at hk1
      | k + 1, hk, hk1 =>
        exact ih (.keep k0 :: rest) (.keep k0 :: r'') (by simpa using hlen)
          (by simp only [mergePass]; rw [hmp'']; rfl) k i a nb
          (by simpa using hk) (by simpa using hk1)
    | .delete i0 :: .delete i1 :: rest =>
      simp only [mergePass] at hmp
      obtain ⟨r', hmp', rfl⟩ := exceptMap_ok.1 hmp
      match k, hk, hk1 with
      | 0, _, hk1 =>
        have hni := mergePass_head_not_insert old (.delete i1 :: rest) r' hmp'
          (by simp [DiffOp.isInsert])
        rw [head?_eq_getElem0] at hni
        have hr0 : r'[0]? = some (.insert a nb) := by simpa using hk1
        have := hni (.insert a nb) (by simp [hr0])
        simp [DiffOp.isInsert] at this
      | k + 1, hk, hk1 =>
        exact ih (.delete i1 :: rest) r' (by simpa using hlen) hmp' k i a nb
          (by simpa using hk) (by simpa using hk1)
    | .delete i0 :: .update u nb0 :: rest =>
      simp only [mergePass] at hmp
      obtain ⟨r', hmp', rfl⟩ := exceptMap_ok.1 hmp
      obtain ⟨r'', hmp'', rfl⟩ := exceptMap_ok.1 hmp'
      match k, hk, hk1 with
      | 0, _, hk1 => simp at hk1
      | k + 1, hk, hk1 =>
        exact ih (.update u nb0 :: rest) (.update u nb0 :: r'')
          (by simpa using hlen)
          (by simp only [mergePass]; rw [hmp'']; rfl) k i a nb
          (by simpa using hk) (by simpa using hk1)
    | .delete i0 :: .insert a0 nb0 :: rest =>
      simp only [mergePass] at hmp
      cases hfind : old.find? (fun b => b.id == some i0) with
      | none =>
        simp only [hfind] at hmp
        simp at hmp
      | some ob =>
        simp only [hfind] at hmp
        split at hmp
        · rename_i hty
          obtain ⟨r', hmp', rfl⟩ := exceptMap_ok.1 hmp
          match k, hk, hk1 with
          | 0, hk, _ => simp at hk
          | k + 1, hk, hk1 =>
            exact ih rest r' (by simp at hlen ⊢; omega) hmp' k i a nb
              (by simpa using hk) (by simpa using hk1)
        · rename_i hty
          obtain ⟨r', hmp', rfl⟩ := exceptMap_ok.1 hmp
          obtain ⟨r'', hmp'', rfl⟩ := exceptMap_ok.1 hmp'
          match k, hk, hk1 with
          | 0, hk, hk1 =>
            simp only [List.getElem?_cons_zero, Option.some.injEq,
              DiffOp.delete.injEq] at hk
            subst hk
            simp only [List.getElem?_cons_succ, List.getElem?_cons_zero,
              Option.some.injEq, DiffOp.insert.injEq] at hk1
            obtain ⟨rfl, rfl⟩ := hk1
            exact ⟨ob, hfind, hty⟩
          | 1, hk, _ => simp at hk
          | k + 2, hk, hk1 =>
            exact ih rest r'' (by simp at hlen ⊢; omega) hmp'' k i a nb
              (by simpa using hk) (by simpa using hk1)

end NotionSync

namespace NotionSync

theorem anchorGo_update_elim :
    ∀ (ops : List DiffOp) (anc : Option String) (k : Nat) (i : String)
      (nb : Block), (anchorGo anc ops)[k]? = some (.update i nb) →
      ops[k]? = some (.update i nb) := by
  intro ops
  induction ops with
  | nil => intro anc k i nb h; simp [anchorGo] at h
  | cons op rest ih =>
    intro anc k i nb h
    match op with
    | .keep k0 =>
      simp only [anchorGo] at h
      match k, h with
      | 0, h => simp at h
      | k + 1, h => simpa using ih _ k i nb (by simpa using h)
    | .update u nb0 =>
      simp only [anchorGo] at h
      match k, h with
      | 0, h => simpa using h
      | k + 1, h => simpa using ih _ k i nb (by simpa using h)
    | .delete d =>
      simp only [anchorGo] at h
      match k, h with
      | 0, h => simp at h
      | k + 1, h => simpa using ih _ k i nb (by simpa using h)
    | .insert a0 nb0 =>
      simp only [anchorGo] at h
      match k, h with
      | 0, h => simp at h
      | k + 1, h => simpa using ih _ k i nb (by simpa using h)

theorem anchorGo_insert0 :
    ∀ (ops : List DiffOp) (anc : Option String) (a : Option String)
      (nb : Block), (anchorGo anc ops)[0]? = some (.insert a nb) →
      ∃ a', ops[0]? = some (.insert a' nb) := by
  intro ops anc a nb h
  match ops with
  | [] => simp [anchorGo] at h
  | .keep k0 :: rest => simp [anchorGo] at h
  | .update u nb0 :: rest => simp [anchorGo] at h
  | .delete d :: rest => simp [anchorGo] at h
  | .insert a0 nb0 :: rest =>
    simp only [anchorGo, List.getElem?_cons_zero, Option.some.injEq,
      DiffOp.insert.injEq] at h
    exact ⟨a0, by simp [h.2]⟩

theorem anchorGo_delins_elim :
    ∀ (ops : List DiffOp) (anc : Option String) (k : Nat) (i : String)
      (a : Option String) (nb : Block),
      (anchorGo anc ops)[k]? = some (.delete i) →
      (anchorGo anc ops)[k + 1]? = some (.insert a nb) →
      ∃ a', ops[k]? = some (.delete i) ∧ ops[k + 1]? = some (.insert a' nb) := by
  intro ops
  induction ops with
  | nil => intro anc k i a nb h _; simp [anchorGo] at h
  | cons op rest ih =>
    intro anc k i a nb h h1
    match op with
    | .keep k0 =>
      simp only [anchorGo] at h h1
      match k, h, h1 with
      | 0, h, _ => simp at h
      | k + 1, h, h1 =>
        obtain ⟨a', h', h1'⟩ := ih _ k i a nb (by simpa using h)
          (by simpa using h1)
        exact ⟨a', by simpa using h', by simpa using h1'⟩
    | .update u nb0 =>
      simp only [anchorGo] at h h1
      match k, h, h1 with
      | 0, h, _ => simp at h
      | k + 1, h, h1 =>
        obtain ⟨a', h', h1'⟩ := ih _ k i a nb (by simpa using h)
          (by simpa using h1)
        exact ⟨a', by simpa using h', by simpa using h1'⟩
    | .delete d =>
      simp only [anchorGo] at h h1
      match k, h, h1 with
      | 0, h, h1 =>
        simp only [List.getElem?_cons_zero, Option.some.injEq,
          DiffOp.delete.injEq] at h
        subst h
        obtain ⟨a', h1'⟩ := anchorGo_insert0 rest _ a nb (by simpa using h1)
        exact ⟨a', by simp, by simpa using h1'⟩
      | k + 1, h, h1 =>
        obtain ⟨a', h', h1'⟩ := ih _ k i a nb (by simpa using h)
          (by simpa using h1)
        exact ⟨a', by simpa using h', by simpa using h1'⟩
    | .insert a0 nb0 =>
      simp only [anchorGo] at h h1
      match k, h, h1 with
      | 0, h, _ => simp at h
      | k + 1, h, h1 =>
        obtain ⟨a', h', h1'⟩ := ih _ k i a nb (by simpa using h)
          (by simpa using h1)
        exact ⟨a', by simpa using h', by simpa using h1'⟩

/-- In any op list `diffBlocks` returns, each update pairs a found old
block of equal type tag with the new block. -/
theorem diffBlocks_update_types_aux (old new : List Block) (ops : List DiffOp)
    (h : diffBlocks old new = .ok ops) :
    ∀ (k : Nat) (i : String) (nb : Block), ops[k]? = some (.update i nb) →
      ∃ ob, old.find? (fun b => b.id == some i) = some ob ∧
        (getBlockContent ob).type = (getBlockContent nb).type := by
  intro k i nb hk
  simp only [diffBlocks] at h
  obtain ⟨merged, hmp, rfl⟩ := exceptMap_ok.1 h
  have hraw : RawScript old new (backtrack old new old.length new.length) := by
    have := backtrack_raw old new (old.length + new.length) old.length
      new.length le_rfl le_rfl le_rfl
    simpa using this
  exact mergePass_update_types old _ _ merged le_rfl hmp hraw.no_update k i nb
    (anchorGo_update_elim merged none k i nb hk)

/-- In any op list `diffBlocks` returns, a delete immediately followed by
an insert pairs a found old block whose type tag differs from the inserted
block's. -/
theorem diffBlocks_delins_types_aux (old new : List Block) (ops : List DiffOp)
    (h : diffBlocks old new = .ok ops) :
    ∀ (k : Nat) (i : String) (a : Option String) (nb : Block),
      ops[k]? = some (.delete i) → ops[k + 1]? = some (.insert a nb) →
      ∃ ob, old.find? (fun b => b.id == some i) = some ob ∧
        (getBlockContent ob).type ≠ (getBlockContent nb).type := by
  intro k i a nb hk hk1
  simp only [diffBlocks] at h
  obtain ⟨merged, hmp, rfl⟩ := exceptMap_ok.1 h
  obtain ⟨a', hk', hk1'⟩ := anchorGo_delins_elim merged none k i a nb hk hk1
  exact mergePass_delins_types old _ _ merged le_rfl hmp k i a' nb hk' hk1'

end NotionSync

namespace NotionSync

instance {ε α : Type} [DecidableEq ε] [DecidableEq α] :
    DecidableEq (Except ε α) := fun a b =>
  match a, b with
  | .error e, .error f =>
    if h : e = f then .isTrue (by rw [h]) else .isFalse (by simp [h])
  | .ok x, .ok y =>
    if h : x = y then .isTrue (by rw [h]) else .isFalse (by simp [h])
  | .error _, .ok _ => .isFalse (by simp)
  | .ok _, .error _ => .isFalse (by simp)

/-! ## Remote update (notion.ts, `updatePageContent`)

The remote mutation calls `updatePageContent` issues, given the fetched
existing blocks and the desired blocks.  `newIds k` models the id the
service returns for the `k`-th single-block append of the call
(`response.results[0].id`, absent when the response carries no block). -/

/-- A remote mutation call issued by `updatePageContent`. -/
inductive RemoteCall where
  | deleteBlock (blockId : String)
  | appendChildren (pageId : String) (after : Option String)
      (children : List Block)
  | updateBlock (blockId : String) (newBlock : Block)
  deriving Repr, DecidableEq

/-- `ops.length > 0 && ops[0].type === 'insert' && ops.some(keep)`. -/
def hasLeadingInsert (ops : List DiffOp) : Bool :=
  !ops.isEmpty &&
    (match ops.head? with
     | some (.insert _ _) => true
     | _ => false) &&
    ops.any (fun op => op.isKeep)

/-- The fallback's delete phase: one delete per existing block whose `id`
is truthy (present and nonempty). -/
def fallbackDeletes (existing : List Block) : List RemoteCall :=
  existing.filterMap (fun b =>
    match b.id with
    | some s => if s = "" then none else some (.deleteBlock s)
    | none => none)

/-- The fallback's append phase: one single-block append per desired block,
each anchored after the previously appended block's returned id (`lastId`),
starting unanchored. -/
def fallbackAppends (pageId : String) (newIds : Nat → Option String) :
    List Block → Nat → Option String → List RemoteCall
  | [], _, _ => []
  | b :: rest, k, lastId =>
    .appendChildren pageId lastId [b] ::
      fallbackAppends pageId newIds rest (k + 1) (newIds k)

/-- Sequential execution of a diff op list, chaining consecutive inserts
through `lastInsertedId` (the id returned for the previous append). -/
def execOps (pageId : String) (newIds : Nat → Option String) :
    List DiffOp → Nat → Option String → List RemoteCall
  | [], _, _ => []
  | .delete i :: rest, k, _ =>
    .deleteBlock i :: execOps pageId newIds rest k none
  | .keep _ :: rest, k, _ => execOps pageId newIds rest k none
  | .update i nb :: rest, k, _ =>
    .updateBlock i nb :: execOps pageId newIds rest k none
  | .insert a nb :: rest, k, lastInsertedId =>
    .appendChildren pageId (lastInsertedId <|> a) [nb] ::
      execOps pageId newIds rest (k + 1) (newIds k)

/-- The remote mutation calls of `updatePageContent(pageId, blocks)` when
the page's non-archived blocks are `existing`: empty desired content is a
no-op; a leading insert together with any keep forces the whole-page
fallback (delete all, re-append one at a time); otherwise the diff ops are
executed in order.  A diff `TypeError` propagates. -/
def updatePageContentCalls (pageId : String) (existing blocks : List Block)
    (newIds : Nat → Option String) : Except String (List RemoteCall) :=
  if blocks.isEmpty then .ok []
  else
    match diffBlocks existing blocks with
    | .error e => .error e
    | .ok ops =>
      if hasLeadingInsert ops then
        .ok (fallbackDeletes existing ++ fallbackAppends pageId newIds blocks 0 none)
      else
        .ok (execOps pageId newIds ops 0 none)

/-! ## Retry wrapper (notion.ts, `withRetry`) -/

/-- A JavaScript error as the retry wrapper inspects it: an optional
`status` field (absent on non-HTTP errors) plus an identifying name. -/
structure JsError where
  name : String
  status : Option Int
  deriving Repr, DecidableEq

/-- `err && typeof err === 'object' && 'status' in err ? err.status : 0`. -/
def statusOf (e : JsError) : Int :=
  e.status.getD 0

/-- The retry loop from attempt `i` with `fuel = retries - i` iterations
left: attempt `i`'s outcome is `results i`; a 429 error before the final
attempt sleeps `(i+1)*1000` ms and retries; any other error, or the final
attempt's, is raised unchanged.  Returns the outcome with the list of sleep
delays. -/
def retryLoop {α : Type} (results : Nat → Except JsError α) :
    Nat → Nat → Except JsError α × List Nat
  | _, 0 => (.error ⟨"Unreachable", none⟩, [])
  | i, fuel + 1 =>
    match results i with
    | .ok a => (.ok a, [])
    | .error e =>
      if statusOf e = 429 ∧ 0 < fuel then
        let r := retryLoop results (i + 1) fuel
        (r.1, (i + 1) * 1000 :: r.2)
      else (.error e, [])

/-- `withRetry(fn, retries)`: run the loop from attempt 0. -/
def withRetry {α : Type} (results : Nat → Except JsError α)
    (retries : Nat := 3) : Except JsError α × List Nat :=
  retryLoop results 0 retries

end NotionSync

namespace NotionSync

/-! ## State store (state.ts, `loadState`)

`loadState` reads the state file and parses it inside one `try`; both a
read failure (absent file) and a parse failure are caught and turned into
`null`.  `readResult` models the file read and `parse` models
`JSON.parse` (`none` = parse throws). -/

/-- `loadState`: `try { return JSON.parse(await readFile(...)) } catch
{ return null }`. -/
def loadStateModel {σ : Type} (readResult : Except String String)
    (parse : String → Option σ) : Option σ :=
  match readResult with
  | .error _ => none
  | .ok raw => parse raw

/-! ## Reconciler (sync.ts)

The sync module's functions, with the filesystem and the remote service
modelled as oracles in `Env` and all reads/writes/remote calls recorded as
an effect trace.  Paths are joined with `/`; `resolve`/`relative` of the
node path module are external collaborators, modelled by plain prefix
arithmetic on already-absolute paths. -/

/-- A child page as returned by `getChildPages`. -/
structure ChildPage where
  id : String
  title : String
  deriving Repr, DecidableEq

/-- `FileState` of this generation: remote page id, hash of the last
synced content, the remote edit timestamp, and the sync time. -/
structure FileStateR where
  notionPageId : String
  localHash : String
  notionLastEdited : String
  lastSyncedAt : String
  deriving Repr, DecidableEq

/-- `SyncState`: root page, local root, and the `files`/`dirs` maps
(association lists keyed by slash-separated relative path). -/
structure SyncStateR where
  rootPageId : String
  dirPath : String
  files : List (String × FileStateR)
  dirs : List (String × String)
  deriving Repr, DecidableEq

/-- JS object assignment: replace the value at an existing key in place,
else append the new key. -/
def setKey {β : Type} : List (String × β) → String → β → List (String × β)
  | [], k, v => [(k, v)]
  | (k', v') :: t, k, v =>
    if k' = k then (k, v) :: t else (k', v') :: setKey t k v

/-- JS `delete` of a key. -/
def delKey {β : Type} : List (String × β) → String → List (String × β)
  | [], _ => []
  | (k', v') :: t, k => if k' = k then t else (k', v') :: delKey t k

/-- The oracles the sync module calls into: converter, hashing, remote
service, filesystem reads, and the clock. -/
structure Env where
  mdToBlocks : String → List Block
  blocksToMd : String → String
  hashContent : String → String
  getChildPages : String → List ChildPage
  createPageId : String → String → String
  getPageMeta : String → Except JsError String
  readFileAbs : String → String
  nowStr : String

/-- One observable effect of a sync function. -/
inductive Eff where
  | readFile (abs : String)
  | remoteList (pageId : String)
  | remoteCreate (parent title : String)
  | remoteUpdatePage (pageId : String)
  | remoteGetMeta (pageId : String)
  | remoteToMd (pageId : String)
  | archivePage (relPath pageId : String)
  | mkdirp (path : String)
  | mkdirParent (fileAbs : String)
  | markPollerWrite (relPath : String)
  | writeFile (abs content : String)
  | clearPollerWrite (relPath : String)
  | saveState
  deriving Repr, DecidableEq

/-- Whether an effect is a remote call. -/
def Eff.isRemote : Eff → Bool
  | .remoteList _ => true
  | .remoteCreate _ _ => true
  | .remoteUpdatePage _ => true
  | .remoteGetMeta _ => true
  | .remoteToMd _ => true
  | .archivePage _ _ => true
  | _ => false

/-- Join two path segments. -/
def pjoin (a b : String) : String := a ++ "/" ++ b

/-- `relative(dir, file)` for a file under `dir`. -/
def relOf (dir file : String) : String :=
  if file.startsWith (dir ++ "/") then file.drop (dir ++ "/").length
  else file

/-- `dirname` of a slash-separated relative path (`.` at the top). -/
def dirOf (rel : String) : String :=
  let segs := rel.splitOn "/"
  if segs.length ≤ 1 then "." else "/".intercalate segs.dropLast

/-- `basename(rel, extname(rel))`: last segment minus its last dotted
extension. -/
def titleOf (rel : String) : String :=
  let base := (rel.splitOn "/").getLastD rel
  let parts := base.splitOn "."
  if parts.length ≤ 1 then base else ".".intercalate parts.dropLast

/-- `ensureDirPage` over the reversed segment list of the directory's
relative path (so the parent is the tail): reuse the page recorded in
state, else search remote siblings by title and reuse, else create; record
the mapping. -/
def ensureDirRev (env : Env) (root : String) :
    List String → SyncStateR → String × SyncStateR × List Eff
  | [], st => (root, st, [])
  | seg :: parentRev, st =>
    let key := "/".intercalate (seg :: parentRev).reverse
    match st.dirs.lookup key with
    | some pid => (pid, st, [])
    | none =>
      let pst :=
        match parentRev with
        | [] => (root, st, [])
        | s :: pr => ensureDirRev env root (s :: pr) st
      let parentPid := pst.1
      let st1 := pst.2.1
      let tr1 := pst.2.2
      match (env.getChildPages parentPid).find? (fun c => c.title == seg) with
      | some c =>
        (c.id, { st1 with dirs := setKey st1.dirs key c.id },
          tr1 ++ [.remoteList parentPid])
      | none =>
        let pid := env.createPageId parentPid seg
        (pid, { st1 with dirs := setKey st1.dirs key pid },
          tr1 ++ [.remoteList parentPid, .remoteCreate parentPid seg])

/-- `ensureDirPage(dirRelPath, rootPageId, state)`. -/
def ensureDirPage (env : Env) (root dirRel : String) (st : SyncStateR) :
    String × SyncStateR × List Eff :=
  ensureDirRev env root (dirRel.splitOn "/").reverse st

end NotionSync

namespace NotionSync

/-- JavaScript `String.prototype.trim()`: strip leading and trailing
whitespace (executable; `String.trim` of the core library is
well-founded-recursive and does not reduce). -/
def jsTrim (s : String) : String :=
  String.mk
    (((s.data.dropWhile Char.isWhitespace).reverse.dropWhile
      Char.isWhitespace).reverse)

/-- `syncFile(filePath, dirPath, state)` (the push of one file): read the
content; skip entirely when it is empty or whitespace-only; skip when the
hash matches the stored one; otherwise ensure the parent container, then
update the tracked page — or reuse a same-titled sibling or create a new
page — refresh the remote timestamp, record the `FileState`, and persist.
The debug log lines of the source are not modelled.  Returns the updated
state (or the propagated `getPageMeta` error) with the effect trace. -/
def syncFileM (env : Env) (filePath dirPath : String) (st : SyncStateR) :
    Except JsError SyncStateR × List Eff :=
  let relPath := relOf dirPath filePath
  let content := env.readFileAbs filePath
  if jsTrim content = "" then (.ok st, [.readFile filePath])
  else
    let hash := env.hashContent content
    let existing := st.files.lookup relPath
    match existing with
    | some ex =>
      if ex.localHash = hash then (.ok st, [.readFile filePath])
      else
        let parentDir := dirOf relPath
        let ens :=
          if parentDir = "." then (st.rootPageId, st, ([] : List Eff))
          else ensureDirPage env st.rootPageId parentDir st
        let st1 := ens.2.1
        let tr1 := ens.2.2
        match env.getPageMeta ex.notionPageId with
        | .error e =>
          (.error e, .readFile filePath :: tr1 ++
            [.remoteUpdatePage ex.notionPageId, .remoteGetMeta ex.notionPageId])
        | .ok t =>
          (.ok { st1 with
              files := setKey st1.files relPath
                ⟨ex.notionPageId, hash, t, env.nowStr⟩ },
            .readFile filePath :: tr1 ++
              [.remoteUpdatePage ex.notionPageId,
               .remoteGetMeta ex.notionPageId, .saveState])
    | none =>
      let title := titleOf relPath
      let parentDir := dirOf relPath
      let ens :=
        if parentDir = "." then (st.rootPageId, st, ([] : List Eff))
        else ensureDirPage env st.rootPageId parentDir st
      let parentPageId := ens.1
      let st1 := ens.2.1
      let tr1 := ens.2.2
      let found := (env.getChildPages parentPageId).find?
        (fun c => c.title == title)
      let pageId :=
        match found with
        | some m => m.id
        | none => env.createPageId parentPageId title
      let trCreate :=
        match found with
        | some m => [Eff.remoteList parentPageId, Eff.remoteUpdatePage m.id]
        | none => [Eff.remoteList parentPageId, Eff.remoteCreate parentPageId title]
      match env.getPageMeta pageId with
      | .error e =>
        (.error e, .readFile filePath :: tr1 ++ trCreate ++
          [.remoteGetMeta pageId])
      | .ok t =>
        (.ok { st1 with
            files := setKey st1.files relPath ⟨pageId, hash, t, env.nowStr⟩ },
          .readFile filePath :: tr1 ++ trCreate ++
            [.remoteGetMeta pageId, .saveState])

mutual
/-- The remote page tree as fetched: a page id and its children keyed by
title, in listing order. -/
inductive NTree where
  | mk (id : String) (children : NForest)
/-- A list of sibling `(title, subtree)` entries of the fetched tree. -/
inductive NForest where
  | nil
  | cons (title : String) (t : NTree) (rest : NForest)
end

/-- Whether a forest is empty (`Object.keys(children).length > 0` test). -/
def NForest.isNil : NForest → Bool
  | .nil => true
  | .cons _ _ _ => false

/-- The directory half of a `pullNotionOnly` entry: when the directory is
untracked, create it locally and record the mapping. -/
def dirStep (absDir dirRel nid : String) (st : SyncStateR) :
    SyncStateR × List Eff :=
  match st.dirs.lookup dirRel with
  | some _ => (st, [])
  | none =>
    ({ st with dirs := setKey st.dirs dirRel nid },
      [Eff.mkdirp (pjoin absDir dirRel)])

mutual
/-- `pullNotionOnly` over a forest of sibling entries. -/
def pullForest (env : Env) (absDir : String) :
    NForest → String → SyncStateR → Except JsError SyncStateR × List Eff
  | .nil, _, st => (.ok st, [])
  | .cons title t rest, parentRel, st =>
    match pullEntry env absDir title t parentRel st with
    | (.error e, tr) => (.error e, tr)
    | (.ok st1, tr1) =>
      let r := pullForest env absDir rest parentRel st1
      (r.1, tr1 ++ r.2)

/-- One entry of `pullNotionOnly`: a node with children is a directory
(create locally when untracked, then recurse); a childless node is a leaf
document (when untracked, convert it, skip if the conversion is empty or
whitespace-only, else write the file under write-suppression marking and
record the `FileState`). -/
def pullEntry (env : Env) (absDir title : String) :
    NTree → String → SyncStateR → Except JsError SyncStateR × List Eff
  | .mk nid children, parentRel, st =>
    if children.isNil then
      let fileRel :=
        (if parentRel = "" then title else parentRel ++ "/" ++ title) ++ ".md"
      match st.files.lookup fileRel with
      | some _ => (.ok st, [])
      | none =>
        let md := env.blocksToMd nid
        if jsTrim md = "" then (.ok st, [.remoteToMd nid])
        else
          let absFile := pjoin absDir fileRel
          match env.getPageMeta nid with
          | .error e =>
            (.error e, [.remoteToMd nid, .mkdirParent absFile,
              .markPollerWrite fileRel, .writeFile absFile md,
              .clearPollerWrite fileRel, .remoteGetMeta nid])
          | .ok t =>
            (.ok { st with
                files := setKey st.files fileRel
                  ⟨nid, env.hashContent md, t, env.nowStr⟩ },
              [.remoteToMd nid, .mkdirParent absFile,
                .markPollerWrite fileRel, .writeFile absFile md,
                .clearPollerWrite fileRel, .remoteGetMeta nid])
    else
      let dirRel :=
        if parentRel = "" then title else parentRel ++ "/" ++ title
      let step := dirStep absDir dirRel nid st
      match pullForest env absDir children dirRel step.1 with
      | (.error e, tr) => (.error e, step.2 ++ tr)
      | (.ok st2, tr2) => (.ok st2, step.2 ++ tr2)
end

end NotionSync

namespace NotionSync

/-- An ephemeral local scan result. -/
structure LocalFile where
  relativePath : String
  absolutePath : String
  deriving Repr, DecidableEq

/-- The push loop of `startupSync`: `syncFile` on each scanned file in
order; the first error aborts the loop (and the startup). -/
def pushFiles (env : Env) (absDir : String) :
    List LocalFile → SyncStateR → Except JsError SyncStateR × List Eff
  | [], st => (.ok st, [])
  | f :: rest, st =>
    match syncFileM env f.absolutePath absDir st with
    | (.error e, tr) => (.error e, tr)
    | (.ok st1, tr1) =>
      let r := pushFiles env absDir rest st1
      (r.1, tr1 ++ r.2)

/-- Steps 2–4 of `startupSync` from an explicit starting state: ensure a
remote container for each scanned directory, then push each scanned
file. -/
def pushPhaseFrom (env : Env) (rootId absDir : String)
    (files dirs : List LocalFile) (st0 : SyncStateR) :
    Except JsError SyncStateR × List Eff :=
  let dstep := dirs.foldl
    (fun (acc : SyncStateR × List Eff) d =>
      ((ensureDirPage env rootId d.relativePath acc.1).2.1,
        acc.2 ++ (ensureDirPage env rootId d.relativePath acc.1).2.2))
    (st0, [])
  match pushFiles env absDir files dstep.1 with
  | (.error e, tr) => (.error e, dstep.2 ++ tr)
  | (.ok st1, tr1) => (.ok st1, dstep.2 ++ tr1)

/-- Steps 1–4 of `startupSync`: load-or-init the state, rebind the root,
ensure a remote container for each scanned directory, then push each
scanned file. -/
def pushPhase (env : Env) (loaded : Option SyncStateR)
    (rootId absDir : String) (files dirs : List LocalFile) :
    Except JsError SyncStateR × List Eff :=
  pushPhaseFrom env rootId absDir files dirs
    (match loaded with
     | some s => { s with rootPageId := rootId }
     | none => ⟨rootId, absDir, [], []⟩)

/-- `startupSync`: the push phase, then a snapshot of the tracked file
paths (`prePullFileKeys`), then the remote-only pull, then archiving of
exactly the entries that were tracked before the pull and are no longer
present locally, then one save. -/
def startupSyncM (env : Env) (loaded : Option SyncStateR)
    (rootId absDir : String) (files dirs : List LocalFile)
    (tree : NForest) : Except JsError SyncStateR × List Eff :=
  match pushPhase env loaded rootId absDir files dirs with
  | (.error e, tr) => (.error e, tr)
  | (.ok mid, tr) =>
    let prePullFileKeys := mid.files.map Prod.fst
    match pullForest env absDir tree "" mid with
    | (.error e, tr2) => (.error e, tr ++ tr2)
    | (.ok pulled, tr2) =>
      let localPaths := files.map LocalFile.relativePath
      let removed := pulled.files.filter
        (fun kv => prePullFileKeys.contains kv.1 && !(localPaths.contains kv.1))
      let finalSt := { pulled with
        files := removed.foldl (fun fs kv => delKey fs kv.1) pulled.files }
      (.ok finalSt,
        tr ++ tr2 ++
          removed.map (fun kv => Eff.archivePage kv.1 kv.2.notionPageId) ++
          [.saveState])

/-- The per-entry body of `syncFromNotion`'s loop: probe the remote
timestamp; when changed, convert and rewrite the local file under
write-suppression marking and refresh the entry; any error is caught and
the loop continues. -/
def pullOneEntry (env : Env) (absDir : String)
    (acc : SyncStateR × List Eff) (kv : String × FileStateR) :
    SyncStateR × List Eff :=
  let st := acc.1
  let relPath := kv.1
  let fs := kv.2
  match env.getPageMeta fs.notionPageId with
  | .error _ => (st, acc.2 ++ [.remoteGetMeta fs.notionPageId])
  | .ok t =>
    if t ≠ fs.notionLastEdited then
      let md := env.blocksToMd fs.notionPageId
      let absFile := pjoin absDir relPath
      ({ st with
          files := setKey st.files relPath
            ⟨fs.notionPageId, env.hashContent md, t, env.nowStr⟩ },
        acc.2 ++ [.remoteGetMeta fs.notionPageId, .remoteToMd fs.notionPageId,
          .mkdirParent absFile, .markPollerWrite relPath,
          .writeFile absFile md, .clearPollerWrite relPath])
    else (st, acc.2 ++ [.remoteGetMeta fs.notionPageId])

/-- `syncFromNotion(dirPath, state)`: dropped outright — no remote call,
no state change, no save — while the sync lock reports an in-flight
watcher sync (`watcherActive > 0`); otherwise every tracked entry is
probed sequentially and the state is saved. -/
def syncFromNotionM (env : Env) (watcherActive : Nat) (dirPath : String)
    (st : SyncStateR) : SyncStateR × List Eff :=
  if watcherActive > 0 then (st, [])
  else
    let r := st.files.foldl (pullOneEntry env dirPath) (st, [])
    (r.1, r.2 ++ [.saveState])

/-! ## Fast-path push (modelled from the spec)

The repository's newest `syncFile` — the one carrying the
`(mtime, size)` fast path that `FileState.localMtime`/`localSize` in
`state.ts` exist for and that `sync.test.ts` exercises — is not among the
provided sources; only its declarations and tests are.  It is modelled
here from the spec's §4.4. -/

/-- `FileState` as the spec's §3 defines it for the fast-path generation;
`localMtime`/`localSize` are optional for backwards compatibility with
older persisted states. -/
structure FileStateS where
  remoteId : String
  contentHash : String
  localMtime : Option Nat
  localSize : Option Nat
  remoteLastEdited : String
  lastSyncedAt : String
  deriving Repr, DecidableEq

/-- Modelled from the spec: `syncFile`'s decision ladder of §4.4 for one
path — the missing fast-path `syncFile` implementation.  Step 2: when a
stored `FileState` has both `localMtime` and `localSize` set and equal to
the current values, return with no effect at all.  Otherwise read the
content (step 3, skip when blank), compare hashes (step 4), and push
(steps 5–6: remote update-or-create, metadata fetch, persist). -/
def syncFileFastTrace (path : String) (stored : Option FileStateS)
    (curMtime curSize : Nat) (content : String)
    (hashF : String → String) : List Eff :=
  let push := [Eff.remoteUpdatePage "", Eff.remoteGetMeta "", Eff.saveState]
  let slow :=
    Eff.readFile path ::
      (if jsTrim content = "" then []
       else
        match stored with
        | some fs => if hashF content = fs.contentHash then [] else push
        | none => push)
  match stored with
  | some fs =>
    if fs.localMtime = some curMtime ∧ fs.localSize = some curSize then []
    else slow
  | none => slow

end NotionSync

namespace NotionSync

theorem lookup_setKey {β : Type} :
    ∀ (m : List (String × β)) (k p : String) (v : β),
      (setKey m k v).lookup p = if p = k then some v else m.lookup p := by
  intro m
  induction m with
  | nil =>
    intro k p v
    by_cases h : p = k
    · subst h; simp [setKey, List.lookup]
    · simp [setKey, List.lookup, beq_eq_false_iff_ne.2 h, h]
  | cons kv t ih =>
    intro k p v
    obtain ⟨k', v'⟩ := kv
    by_cases hk : k' = k
    · subst hk
      by_cases hp : p = k'
      · subst hp; simp [setKey, List.lookup]
      · simp [setKey, List.lookup, beq_eq_false_iff_ne.2 hp, hp]
    · by_cases hp : p = k'
      · subst hp
        have hpk : ¬p = k := hk
        simp [setKey, if_neg hk, List.lookup, hpk]
      · simp [setKey, if_neg hk, List.lookup,
          beq_eq_false_iff_ne.2 hp, ih]

theorem lookup_isSome_iff_mem_keys {β : Type} :
    ∀ (m : List (String × β)) (p : String),
      (m.lookup p).isSome ↔ p ∈ m.map Prod.fst := by
  intro m
  induction m with
  | nil => intro p; simp [List.lookup]
  | cons kv t ih =>
    intro p
    obtain ⟨k', v'⟩ := kv
    by_cases hp : p = k'
    · subst hp; simp [List.lookup]
    · simp [List.lookup, beq_eq_false_iff_ne.2 hp, hp, ih]

theorem lookup_mem {β : Type} :
    ∀ (m : List (String × β)) (p : String) (v : β),
      m.lookup p = some v → (p, v) ∈ m := by
  intro m
  induction m with
  | nil => intro p v h; simp [List.lookup] at h
  | cons kv t ih =>
    intro p v h
    obtain ⟨k', v'⟩ := kv
    by_cases hp : p = k'
    · subst hp
      simp [List.lookup] at h
      simp [h]
    · simp [List.lookup, beq_eq_false_iff_ne.2 hp] at h
      exact List.mem_cons_of_mem _ (ih p v h)

theorem dirStep_files (absDir dirRel nid : String) (st : SyncStateR) :
    ((dirStep absDir dirRel nid st).1).files = st.files := by
  unfold dirStep
  cases st.dirs.lookup dirRel <;> rfl

mutual
/-- Pulling only adds tracked file entries. -/
theorem pullForest_mono (env : Env) (absDir : String) :
    ∀ (f : NForest) (parentRel : String) (st st' : SyncStateR)
      (tr : List Eff), pullForest env absDir f parentRel st = (.ok st', tr) →
      ∀ p, (st.files.lookup p).isSome → (st'.files.lookup p).isSome
  | .nil, parentRel, st, st', tr, h, p, hp => by
    simp only [pullForest, Prod.mk.injEq, Except.ok.injEq] at h
    rw [← h.1]
    exact hp
  | .cons title t rest, parentRel, st, st', tr, h, p, hp => by
    simp only [pullForest] at h
    rcases he : pullEntry env absDir title t parentRel st with ⟨r1, tr1⟩
    simp only [he] at h
    match r1, h with
    | .ok st1, h =>
      rcases hf : pullForest env absDir rest parentRel st1 with ⟨r2, tr2⟩
      simp only [hf] at h
      obtain ⟨h1, -⟩ := Prod.mk.injEq .. ▸ h
      exact pullForest_mono env absDir rest parentRel st1 st' tr2
        (by rw [hf, h1]) p
        (pullEntry_mono env absDir title t parentRel st st1 tr1 he p hp)

theorem pullEntry_mono (env : Env) (absDir title : String) :
    ∀ (t : NTree) (parentRel : String) (st st' : SyncStateR)
      (tr : List Eff), pullEntry env absDir title t parentRel st = (.ok st', tr) →
      ∀ p, (st.files.lookup p).isSome → (st'.files.lookup p).isSome
  | .mk nid .nil, parentRel, st, st', tr, h, p, hp => by
    simp only [pullEntry, NForest.isNil, if_true] at h
    rcases hlk : st.files.lookup
        ((if parentRel = "" then title else parentRel ++ "/" ++ title) ++ ".md")
      with _ | fs
    · simp only [hlk] at h
      by_cases hmd : jsTrim (env.blocksToMd nid) = ""
      · rw [if_pos hmd] at h
        obtain ⟨h1, -⟩ := Prod.mk.injEq .. ▸ h
        cases h1
        exact hp
      · rw [if_neg hmd] at h
        rcases hm : env.getPageMeta nid with e | ts
        · simp only [hm] at h
          obtain ⟨h1, -⟩ := Prod.mk.injEq .. ▸ h
          cases h1
        · simp only [hm] at h
          obtain ⟨h1, -⟩ := Prod.mk.injEq .. ▸ h
          cases h1
          simp only [lookup_setKey]
          by_cases hq : p =
            (if parentRel = "" then title else parentRel ++ "/" ++ title) ++ ".md"
          · rw [if_pos hq]
            rfl
          · rw [if_neg hq]
            exact hp
    · simp only [hlk] at h
      obtain ⟨h1, -⟩ := Prod.mk.injEq .. ▸ h
      cases h1
      exact hp
  | .mk nid (.cons t0 ts rest0), parentRel, st, st', tr, h, p, hp => by
    simp only [pullEntry, NForest.isNil, Bool.false_eq_true, if_false] at h
    rcases hf : pullForest env absDir (.cons t0 ts rest0)
        (if parentRel = "" then title else parentRel ++ "/" ++ title)
        ((dirStep absDir
          (if parentRel = "" then title else parentRel ++ "/" ++ title)
          nid st).1)
      with ⟨r2, tr2⟩
    simp only [hf] at h
    match r2, h with
    | .ok st2, h =>
      have h1 : st2 = st' := by
        have h2 := congrArg Prod.fst h
        simpa using h2
      refine pullForest_mono env absDir (.cons t0 ts rest0)
        (if parentRel = "" then title else parentRel ++ "/" ++ title)
        ((dirStep absDir
          (if parentRel = "" then title else parentRel ++ "/" ++ title)
          nid st).1) st' tr2 ?_ p ?_
      · rw [hf, h1]
      · rw [dirStep_files]
        exact hp
end

end NotionSync

namespace NotionSync

/-- When every attempt fails rate-limited, the loop sleeps
`(attempt_index + 1) * 1000` before each retry and finally raises the last
attempt's error unchanged. -/
theorem retryLoop_all429 {α : Type} (results : Nat → Except JsError α)
    (h : ∀ i, ∃ ei, results i = .error ei ∧ statusOf ei = 429) :
    ∀ (fuel i : Nat), 0 < fuel →
      retryLoop results i fuel =
        (results (i + fuel - 1),
          (List.range (fuel - 1)).map (fun t => (i + 1 + t) * 1000)) := by
  intro fuel
  induction fuel with
  | zero => intro i h0; exact absurd h0 (lt_irrefl 0)
  | succ f ih =>
    intro i _
    obtain ⟨e, he, h429⟩ := h i
    cases f with
    | zero =>
      simp only [retryLoop, he]
      rw [if_neg (by omega)]
      simp [he]
    | succ f' =>
      have ihh := ih (i + 1) (by omega)
      show ((match results i with
        | Except.ok a => ((Except.ok a : Except JsError α), ([] : List Nat))
        | Except.error e =>
          if statusOf e = 429 ∧ 0 < f' + 1 then
            ((retryLoop results (i + 1) (f' + 1)).1,
              (i + 1) * 1000 :: (retryLoop results (i + 1) (f' + 1)).2)
          else (Except.error e, [])) =
        (results (i + (f' + 1 + 1) - 1),
          (List.range (f' + 1 + 1 - 1)).map (fun t => (i + 1 + t) * 1000)))
      rw [he]
      show ((if statusOf e = 429 ∧ 0 < f' + 1 then
          ((retryLoop results (i + 1) (f' + 1)).1,
            (i + 1) * 1000 :: (retryLoop results (i + 1) (f' + 1)).2)
        else (Except.error e, [])) =
        (results (i + (f' + 1 + 1) - 1),
          (List.range (f' + 1 + 1 - 1)).map (fun t => (i + 1 + t) * 1000)))
      rw [if_pos ⟨h429, by omega⟩, ihh]
      rw [Prod.mk.injEq]
      constructor
      · have harg : i + 1 + (f' + 1) - 1 = i + (f' + 1 + 1) - 1 := by omega
        rw [harg]
      · show (i + 1) * 1000 ::
            List.map (fun t => (i + 1 + 1 + t) * 1000) (List.range (f' + 1 - 1)) =
          List.map (fun t => (i + 1 + t) * 1000) (List.range (f' + 1 + 1 - 1))
        have h1 : f' + 1 - 1 = f' := rfl
        have h2 : f' + 1 + 1 - 1 = f' + 1 := rfl
        rw [h1, h2, List.range_succ_eq_map, List.map_cons, List.map_map,
          List.cons.injEq]
        refine ⟨by omega, ?_⟩
        apply List.map_congr_left
        intro t _
        simp [Function.comp]
        omega

/-- A non-rate-limited failure at any live attempt is raised at once, with
no further sleep. -/
theorem retryLoop_non429 {α : Type} (results : Nat → Except JsError α)
    (i fuel : Nat) (e : JsError) (he : results i = .error e)
    (h429 : ¬statusOf e = 429) (hf : 0 < fuel) :
    retryLoop results i fuel = (.error e, []) := by
  cases fuel with
  | zero => exact absurd hf (lt_irrefl 0)
  | succ f =>
    simp only [retryLoop, he]
    rw [if_neg (by intro hc; exact h429 hc.1)]

/-- When every existing block carries a truthy id, the fallback's delete
phase is exactly one delete per existing block, in order, by id. -/
theorem fallbackDeletes_map (existing : List Block)
    (hids : ∀ b ∈ existing, ∃ s, b.id = some s ∧ s ≠ "") :
    fallbackDeletes existing =
      existing.map (fun b => RemoteCall.deleteBlock (bid b)) := by
  induction existing with
  | nil => rfl
  | cons b t ih =>
    obtain ⟨s, hs, hne⟩ := hids b (List.mem_cons_self b t)
    simp only [fallbackDeletes, List.filterMap_cons, hs, List.map_cons]
    rw [if_neg hne]
    simp only [bid, hs, Option.getD_some]
    exact congrArg _ (ih (fun b hb => hids b (List.mem_cons_of_mem _ hb)))

/-- The fallback's append phase, positionally: the `j`-th call appends the
`j`-th desired block alone, anchored after the id the service returned for
the previous append (the running `lastId` for the first). -/
theorem fallbackAppends_get (pageId : String) (newIds : Nat → Option String) :
    ∀ (bs : List Block) (k : Nat) (lastId : Option String) (j : Nat),
      (fallbackAppends pageId newIds bs k lastId)[j]? =
        (bs[j]?).map (fun b => RemoteCall.appendChildren pageId
          (if j = 0 then lastId else newIds (k + j - 1)) [b]) := by
  intro bs
  induction bs with
  | nil => intro k lastId j; cases j <;> rfl
  | cons b t ih =>
    intro k lastId j
    cases j with
    | zero =>
      rw [show fallbackAppends pageId newIds (b :: t) k lastId =
        RemoteCall.appendChildren pageId lastId [b] ::
          fallbackAppends pageId newIds t (k + 1) (newIds k) from rfl]
      simp
    | succ j' =>
      simp only [fallbackAppends, List.getElem?_cons_succ, ih]
      cases t[j']? with
      | none => rfl
      | some b' =>
        cases j' with
        | zero => simp
        | succ j'' =>
          have h3 : k + 1 + (j'' + 1) - 1 = k + (j'' + 1 + 1) - 1 := by omega
          simp [h3]

end NotionSync

namespace NotionSync

/-- `contains` on a string list is membership. -/
theorem contains_iff (l : List String) (a : String) :
    l.contains a = true ↔ a ∈ l := List.elem_iff

/-- `ensureDirPage` never archives. -/
theorem ensureDirRev_noArch (env : Env) (root p pid : String)
    (segs : List String) :
    ∀ st, Eff.archivePage p pid ∉ (ensureDirRev env root segs st).2.2 := by
  induction segs with
  | nil =>
    intro st
    show Eff.archivePage p pid ∉ ([] : List Eff)
    exact List.not_mem_nil _
  | cons seg parentRev ih =>
    intro st
    cases parentRev with
    | nil =>
      simp only [ensureDirRev]
      rcases hlk : st.dirs.lookup ("/".intercalate ([seg].reverse))
        with _ | pid'
      · simp only [hlk]
        rcases hf : (env.getChildPages root).find? (fun c => c.title == seg)
          with _ | c
        · simp [hf]
        · simp [hf]
      · simp [hlk]
    | cons s pr =>
      simp only [ensureDirRev]
      rcases hlk : st.dirs.lookup ("/".intercalate ((seg :: s :: pr).reverse))
        with _ | pid'
      · simp only [hlk]
        rcases hf : (env.getChildPages
            (ensureDirRev env root (s :: pr) st).1).find?
            (fun c => c.title == seg) with _ | c
        · simp only [hf, List.mem_append]
          rintro (h | h)
          · exact ih st h
          · simp at h
        · simp only [hf, List.mem_append]
          rintro (h | h)
          · exact ih st h
          · simp at h
      · simp [hlk]

/-- `syncFile` never archives. -/
theorem syncFileM_noArch (env : Env) (f d p pid : String) (st : SyncStateR) :
    Eff.archivePage p pid ∉ (syncFileM env f d st).2 := by
  simp only [syncFileM]
  by_cases h1 : jsTrim (env.readFileAbs f) = ""
  · simp [h1]
  · rw [if_neg h1]
    rcases hlk : st.files.lookup (relOf d f) with _ | ex
    · simp only [hlk]
      set ens := (if dirOf (relOf d f) = "."
        then (st.rootPageId, st, ([] : List Eff))
        else ensureDirPage env st.rootPageId (dirOf (relOf d f)) st) with hens2
      have hEns : Eff.archivePage p pid ∉ ens.2.2 := by
        rw [hens2]
        by_cases hd : dirOf (relOf d f) = "."
        · simp [hd]
        · rw [if_neg hd]
          exact ensureDirRev_noArch env st.rootPageId p pid _ st
      rcases hf : (env.getChildPages ens.1).find?
          (fun c => c.title == titleOf (relOf d f)) with _ | m
      · simp only [hf]
        rcases hm : env.getPageMeta (env.createPageId ens.1
            (titleOf (relOf d f))) with e | t
        · simp only [hm]
          intro h
          simp at h
          exact hEns h
        · simp only [hm]
          intro h
          simp at h
          exact hEns h
      · simp only [hf]
        rcases hm : env.getPageMeta m.id with e | t
        · simp only [hm]
          intro h
          simp at h
          exact hEns h
        · simp only [hm]
          intro h
          simp at h
          exact hEns h
    · simp only [hlk]
      by_cases h2 : ex.localHash = env.hashContent (env.readFileAbs f)
      · simp [h2]
      · rw [if_neg h2]
        set ens := (if dirOf (relOf d f) = "."
          then (st.rootPageId, st, ([] : List Eff))
          else ensureDirPage env st.rootPageId (dirOf (relOf d f)) st) with hens2
        have hEns : Eff.archivePage p pid ∉ ens.2.2 := by
          rw [hens2]
          by_cases hd : dirOf (relOf d f) = "."
          · simp [hd]
          · rw [if_neg hd]
            exact ensureDirRev_noArch env st.rootPageId p pid _ st
        rcases hm : env.getPageMeta ex.notionPageId with e | t
        · simp only [hm]
          intro h
          simp at h
          exact hEns h
        · simp only [hm]
          intro h
          simp at h
          exact hEns h

end NotionSync

namespace NotionSync

/-- The push loop never archives. -/
theorem pushFiles_noArch (env : Env) (absDir p pid : String) :
    ∀ (files : List LocalFile) (st : SyncStateR),
      Eff.archivePage p pid ∉ (pushFiles env absDir files st).2 := by
  intro files
  induction files with
  | nil =>
    intro st
    show Eff.archivePage p pid ∉ ([] : List Eff)
    exact List.not_mem_nil _
  | cons f rest ih =>
    intro st
    simp only [pushFiles]
    rcases hs : syncFileM env f.absolutePath absDir st with ⟨r1, tr1⟩
    have h1 : Eff.archivePage p pid ∉ tr1 := by
      have := syncFileM_noArch env f.absolutePath absDir p pid st
      rw [hs] at this
      exact this
    match r1 with
    | .error e => simpa using h1
    | .ok st1 =>
      simp only [List.mem_append]
      rintro (h | h)
      · exact h1 h
      · exact ih st1 h

/-- The directory-container loop of `pushPhase` never archives. -/
theorem dirsFold_noArch (env : Env) (rootId p pid : String) :
    ∀ (dirs : List LocalFile) (acc : SyncStateR × List Eff),
      Eff.archivePage p pid ∉ acc.2 →
      Eff.archivePage p pid ∉ (dirs.foldl
        (fun (acc : SyncStateR × List Eff) d =>
          ((ensureDirPage env rootId d.relativePath acc.1).2.1,
            acc.2 ++ (ensureDirPage env rootId d.relativePath acc.1).2.2))
        acc).2 := by
  intro dirs
  induction dirs with
  | nil => intro acc hacc; exact hacc
  | cons d rest ih =>
    intro acc hacc
    simp only [List.foldl_cons]
    apply ih
    simp only [List.mem_append]
    rintro (h | h)
    · exact hacc h
    · exact ensureDirRev_noArch env rootId p pid _ acc.1 h

/-- The whole push phase never archives, from any starting state. -/
theorem pushPhaseFrom_noArch (env : Env) (rootId absDir p pid : String)
    (files dirs : List LocalFile) (st0 : SyncStateR) :
    Eff.archivePage p pid ∉
      (pushPhaseFrom env rootId absDir files dirs st0).2 := by
  simp only [pushPhaseFrom]
  have h0 : Eff.archivePage p pid ∉ (dirs.foldl
      (fun (acc : SyncStateR × List Eff) d =>
        ((ensureDirPage env rootId d.relativePath acc.1).2.1,
          acc.2 ++ (ensureDirPage env rootId d.relativePath acc.1).2.2))
      (st0, [])).2 :=
    dirsFold_noArch env rootId p pid dirs (st0, []) (List.not_mem_nil _)
  rcases hp : pushFiles env absDir files (dirs.foldl
      (fun (acc : SyncStateR × List Eff) d =>
        ((ensureDirPage env rootId d.relativePath acc.1).2.1,
          acc.2 ++ (ensureDirPage env rootId d.relativePath acc.1).2.2))
      (st0, [])).1 with ⟨r1, tr1⟩
  have h1 : Eff.archivePage p pid ∉ tr1 := by
    have := pushFiles_noArch env absDir p pid files (dirs.foldl
      (fun (acc : SyncStateR × List Eff) d =>
        ((ensureDirPage env rootId d.relativePath acc.1).2.1,
          acc.2 ++ (ensureDirPage env rootId d.relativePath acc.1).2.2))
      (st0, [])).1
    rw [hp] at this
    exact this
  simp only [hp]
  match r1 with
  | .error e =>
    simp only [List.mem_append]
    rintro (h | h)
    · exact h0 h
    · exact h1 h
  | .ok st1 =>
    simp only [List.mem_append]
    rintro (h | h)
    · exact h0 h
    · exact h1 h

/-- The whole push phase never archives. -/
theorem pushPhase_noArch (env : Env) (loaded : Option SyncStateR)
    (rootId absDir p pid : String) (files dirs : List LocalFile) :
    Eff.archivePage p pid ∉
      (pushPhase env loaded rootId absDir files dirs).2 :=
  pushPhaseFrom_noArch env rootId absDir p pid files dirs _

mutual
/-- The remote-only pull over a forest never archives. -/
theorem pullForest_noArch (env : Env) (absDir p pid : String) :
    ∀ (f : NForest) (parentRel : String) (st : SyncStateR),
      Eff.archivePage p pid ∉ (pullForest env absDir f parentRel st).2
  | .nil, parentRel, st => by
    show Eff.archivePage p pid ∉ ([] : List Eff)
    exact List.not_mem_nil _
  | .cons title t rest, parentRel, st => by
    simp only [pullForest]
    rcases he : pullEntry env absDir title t parentRel st with ⟨r1, tr1⟩
    have h1 : Eff.archivePage p pid ∉ tr1 := by
      have := pullEntry_noArch env absDir p pid title t parentRel st
      rw [he] at this
      exact this
    match r1 with
    | .error e => exact h1
    | .ok st1 =>
      intro h
      rcases List.mem_append.1 h with h | h
      · exact h1 h
      · exact pullForest_noArch env absDir p pid rest parentRel st1 h

/-- One entry of the remote-only pull never archives. -/
theorem pullEntry_noArch (env : Env) (absDir p pid : String) :
    ∀ (title : String) (t : NTree) (parentRel : String) (st : SyncStateR),
      Eff.archivePage p pid ∉ (pullEntry env absDir title t parentRel st).2
  | title, .mk nid .nil, parentRel, st => by
    simp only [pullEntry, NForest.isNil, if_true]
    rcases hlk : st.files.lookup
        ((if parentRel = "" then title else parentRel ++ "/" ++ title) ++ ".md")
      with _ | fs
    · simp only [hlk]
      by_cases hmd : jsTrim (env.blocksToMd nid) = ""
      · simp [hmd]
      · rw [if_neg hmd]
        rcases hm : env.getPageMeta nid with e | ts
        · simp [hm]
        · simp [hm]
    · simp [hlk]
  | title, .mk nid (.cons t0 ts rest0), parentRel, st => by
    simp only [pullEntry, NForest.isNil, Bool.false_eq_true, if_false]
    rcases hf : pullForest env absDir (.cons t0 ts rest0)
        (if parentRel = "" then title else parentRel ++ "/" ++ title)
        ((dirStep absDir
          (if parentRel = "" then title else parentRel ++ "/" ++ title)
          nid st).1) with ⟨r2, tr2⟩
    have h2 : Eff.archivePage p pid ∉ tr2 := by
      have := pullForest_noArch env absDir p pid (.cons t0 ts rest0)
        (if parentRel = "" then title else parentRel ++ "/" ++ title)
        ((dirStep absDir
          (if parentRel = "" then title else parentRel ++ "/" ++ title)
          nid st).1)
      rw [hf] at this
      exact this
    have hstep : Eff.archivePage p pid ∉ (dirStep absDir
        (if parentRel = "" then title else parentRel ++ "/" ++ title)
        nid st).2 := by
      unfold dirStep
      rcases st.dirs.lookup
          (if parentRel = "" then title else parentRel ++ "/" ++ title)
        with _ | d
      · simp
      · simp
    match r2 with
    | .error e =>
      intro h
      rcases List.mem_append.1 h with h | h
      · exact hstep h
      · exact h2 h
    | .ok st2 =>
      intro h
      rcases List.mem_append.1 h with h | h
      · exact hstep h
      · exact h2 h
end

end NotionSync

namespace NotionSync

/-- A trivial oracle environment for concrete runs: blank file contents,
blank conversions, identity hash, no remote children, fixed ids. -/
def env0 : Env :=
  ⟨fun _ => [], fun _ => "", fun s => s, fun _ => [], fun _ _ => "pg",
    fun _ => .ok "t1", fun _ => "", "now"⟩

/-- C9: while the sync lock reports an in-flight local→remote sync
(`watcherActive > 0`), an invocation of `syncFromNotion` is dropped
outright: it returns the state unchanged with an empty effect trace — so
zero remote calls, no file writes, and no state save. -/
theorem C9_watcherGate (env : Env) (watcherActive : Nat) (dirPath : String)
    (st : SyncStateR) (h : 0 < watcherActive) :
    syncFromNotionM env watcherActive dirPath st = (st, []) := by
  simp [syncFromNotionM, h]

theorem C9_watcherGate_witness :
    syncFromNotionM env0 1 "/d"
        ⟨"root", "/d", [("a.md", ⟨"p1", "h", "t", "s"⟩)], []⟩ =
      (⟨"root", "/d", [("a.md", ⟨"p1", "h", "t", "s"⟩)], []⟩, []) :=
  C9_watcherGate env0 1 "/d" _ (by decide)

/-- C8 counterexample: a state file that is present but unparsable is NOT a
hard failure — `loadState` catches the parse error and returns `null`,
exactly as it does for an absent file. -/
theorem C8_counterexample :
    loadStateModel (σ := SyncStateR) (.ok "not json") (fun _ => none) = none ∧
    loadStateModel (σ := SyncStateR) (.error "ENOENT") (fun _ => none) =
      none :=
  ⟨rfl, rfl⟩

/-- C8 (amended): `loadState` silently treats a present-but-unparsable
state file as a fresh start (`null`), indistinguishable from an absent
file; there is no hard failure path. -/
theorem C8_loadState {σ : Type} (raw : String) (parse : String → Option σ)
    (hbad : parse raw = none) :
    loadStateModel (.ok raw) parse = none ∧
    ∀ msg : String, loadStateModel (.error msg) parse = none := by
  refine ⟨?_, fun msg => rfl⟩
  simp [loadStateModel, hbad]

theorem C8_loadState_witness :
    loadStateModel (σ := SyncStateR) (.ok "oops") (fun _ => none) = none ∧
    ∀ msg : String,
      loadStateModel (σ := SyncStateR) (.error msg) (fun _ => none) = none :=
  C8_loadState "oops" (fun _ => none) rfl

/-- C5: empty or whitespace-only content never produces a tracked entry on
either side.  Push: `syncFile` on a file whose content trims to the empty
string returns the state unchanged after only the content read — no remote
page created, no `FileState` recorded, no save.  Pull: `pullNotionOnly` on
an untracked leaf page whose conversion trims to the empty string returns
the state unchanged after only the conversion — no local file written, no
`FileState` recorded. -/
theorem C5_emptySkips (env : Env)
    (filePath dirPath absDir title parentRel nid : String) (st : SyncStateR)
    (hpush : jsTrim (env.readFileAbs filePath) = "")
    (hpull : jsTrim (env.blocksToMd nid) = "")
    (huntracked : st.files.lookup
      ((if parentRel = "" then title else parentRel ++ "/" ++ title) ++ ".md")
        = none) :
    syncFileM env filePath dirPath st = (.ok st, [.readFile filePath]) ∧
    pullEntry env absDir title (.mk nid .nil) parentRel st =
      (.ok st, [.remoteToMd nid]) := by
  constructor
  · simp [syncFileM, hpush]
  · simp only [pullEntry, NForest.isNil, if_true, huntracked, hpull]

theorem C5_emptySkips_witness :
    syncFileM env0 "/d/a.md" "/d" ⟨"root", "/d", [], []⟩ =
      (.ok ⟨"root", "/d", [], []⟩, [.readFile "/d/a.md"]) ∧
    pullEntry env0 "/d" "t" (.mk "n1" .nil) "" ⟨"root", "/d", [], []⟩ =
      (.ok ⟨"root", "/d", [], []⟩, [.remoteToMd "n1"]) :=
  C5_emptySkips env0 "/d/a.md" "/d" "/d" "t" "" "n1" _ (by rfl) (by rfl)
    (by rfl)

/-- C4: the fast path of the spec's §4.4 `syncFile` (modelled from the
spec; the fast-path implementation itself is not among the repository's
source files): when the stored `FileState` carries both `localMtime` and
`localSize` and they equal the file's current values, `syncFile` returns
with an empty effect trace — no content read and no remote call. -/
theorem C4_fastPath (path : String) (fs : FileStateS)
    (curMtime curSize : Nat) (content : String) (hashF : String → String)
    (hm : fs.localMtime = some curMtime) (hs : fs.localSize = some curSize) :
    syncFileFastTrace path (some fs) curMtime curSize content hashF = [] := by
  simp [syncFileFastTrace, hm, hs]

theorem C4_fastPath_witness :
    syncFileFastTrace "/d/a.md" (some ⟨"p1", "h", some 5, some 9, "t", "s"⟩)
      5 9 "body" (fun s => s) = [] :=
  C4_fastPath "/d/a.md" _ 5 9 "body" (fun s => s) rfl rfl

end NotionSync

namespace NotionSync

/-- C7: the retry wrapper.  (a) When every attempt fails rate-limited
(status 429), `withRetry` retries up to the attempt bound with linearly
increasing backoff — the sleep before retry `t` is `(t + 1) * 1000` ms —
and the final attempt's error is raised unchanged rather than retried.
(b) A non-429 error on the first attempt propagates immediately, with no
retry and no sleep. -/
theorem C7_withRetry {α : Type} (results : Nat → Except JsError α)
    (retries : Nat) (hr : 0 < retries) :
    ((∀ i, ∃ ei, results i = .error ei ∧ statusOf ei = 429) →
      withRetry results retries =
        (results (retries - 1),
          (List.range (retries - 1)).map (fun t => (t + 1) * 1000))) ∧
    (∀ e, results 0 = .error e → ¬statusOf e = 429 →
      withRetry results retries = (.error e, [])) := by
  constructor
  · intro h429
    show retryLoop results 0 retries = _
    rw [retryLoop_all429 results h429 retries 0 hr]
    have h1 : 0 + retries - 1 = retries - 1 := by omega
    rw [h1, Prod.mk.injEq]
    refine ⟨rfl, ?_⟩
    apply List.map_congr_left
    intro t _
    omega
  · intro e he h429
    exact retryLoop_non429 results 0 retries e he h429 hr

theorem C7_withRetry_witness :
    withRetry (fun _ => (.error ⟨"RL", some 429⟩ : Except JsError Nat)) 3 =
      (.error ⟨"RL", some 429⟩, [1000, 2000]) ∧
    withRetry (fun _ => (.error ⟨"Boom", none⟩ : Except JsError Nat)) 3 =
      (.error ⟨"Boom", none⟩, []) := by
  constructor
  · rw [(C7_withRetry (fun _ => (.error ⟨"RL", some 429⟩ : Except JsError Nat))
      3 (by decide)).1 (fun i => ⟨⟨"RL", some 429⟩, rfl, by decide⟩)]
    decide
  · exact (C7_withRetry
      (fun _ => (.error ⟨"Boom", none⟩ : Except JsError Nat)) 3 (by decide)).2
      ⟨"Boom", none⟩ rfl (by decide)

/-- C3: `updatePageContent` with a nonempty desired list whose diff starts
with an insert and contains a keep takes the whole-page fallback: one
delete per existing block, sequentially by id, followed by one
single-block append per desired block in exactly the desired order, the
`j`-th anchored after the id returned for append `j - 1` (the first
unanchored — never a prepend).  Without the leading-insert-plus-keep
shape, the minimal op list is executed instead. -/
theorem C3_fallback (pageId : String) (existing blocks : List Block)
    (newIds : Nat → Option String) (ops : List DiffOp)
    (hne : blocks.isEmpty = false)
    (hd : diffBlocks existing blocks = .ok ops)
    (hids : ∀ b ∈ existing, ∃ s, b.id = some s ∧ s ≠ "") :
    (hasLeadingInsert ops = true →
      updatePageContentCalls pageId existing blocks newIds =
        .ok (existing.map (fun b => RemoteCall.deleteBlock (bid b)) ++
          fallbackAppends pageId newIds blocks 0 none) ∧
      ∀ j : Nat, (fallbackAppends pageId newIds blocks 0 none)[j]? =
        (blocks[j]?).map (fun b => RemoteCall.appendChildren pageId
          (if j = 0 then none else newIds (j - 1)) [b])) ∧
    (hasLeadingInsert ops = false →
      updatePageContentCalls pageId existing blocks newIds =
        .ok (execOps pageId newIds ops 0 none)) := by
  refine ⟨fun hli => ⟨?_, ?_⟩, fun hli => ?_⟩
  · simp only [updatePageContentCalls, hne, hd, hli, Bool.false_eq_true,
      if_false, if_true]
    rw [fallbackDeletes_map existing hids]
  · intro j
    rw [fallbackAppends_get pageId newIds blocks 0 none j]
    cases j with
    | zero => rfl
    | succ j' => simp
  · simp only [updatePageContentCalls, hne, hd, hli, Bool.false_eq_true,
      if_false]

theorem C3_fallback_witness :
    updatePageContentCalls "pg" [pblkId "a" "b1"] [pblk "new", pblk "a"]
        (fun k => some (String.append "id" (toString k))) =
      .ok [.deleteBlock "b1",
        .appendChildren "pg" none [pblk "new"],
        .appendChildren "pg" (some "id0") [pblk "a"]] ∧
    (fallbackAppends "pg" (fun k => some (String.append "id" (toString k)))
        [pblk "new", pblk "a"] 0 none)[1]? =
      some (.appendChildren "pg" (some "id0") [pblk "a"]) := by
  have h := C3_fallback "pg" [pblkId "a" "b1"] [pblk "new", pblk "a"]
    (fun k => some (String.append "id" (toString k)))
    [.insert none (pblk "new"), .keep "b1"] (by decide) (by decide)
    (by decide)
  constructor
  · rw [(h.1 (by decide)).1]
    decide
  · rw [(h.1 (by decide)).2 1]
    decide

end NotionSync

namespace NotionSync

/-- C2: the merge pass collapses an emitted `delete` immediately followed
by `insert` into one `update` exactly when the two blocks' type tags are
equal: every `update` in a returned op list pairs equal type tags, every
surviving adjacent `delete`–`insert` pair pairs distinct type tags, and the
two spec examples hold — a same-type paragraph text edit becomes a single
`update`, and a heading-to-paragraph type change stays
`delete` + `insert`. -/
theorem C2_mergeUpdate :
    (∀ (old new : List Block) (ops : List DiffOp),
      diffBlocks old new = .ok ops →
      (∀ (k : Nat) (i : String) (nb : Block),
        ops[k]? = some (.update i nb) →
        ∃ ob, old.find? (fun b => b.id == some i) = some ob ∧
          (getBlockContent ob).type = (getBlockContent nb).type) ∧
      (∀ (k : Nat) (i : String) (a : Option String) (nb : Block),
        ops[k]? = some (.delete i) → ops[k + 1]? = some (.insert a nb) →
        ∃ ob, old.find? (fun b => b.id == some i) = some ob ∧
          (getBlockContent ob).type ≠ (getBlockContent nb).type)) ∧
    diffBlocks [pblkId "old" "b1"] [pblk "new"] =
      .ok [.update "b1" (pblk "new")] ∧
    diffBlocks [h1blkId "x" "b1"] [pblk "x"] =
      .ok [.delete "b1", .insert none (pblk "x")] := by
  refine ⟨fun old new ops h =>
    ⟨diffBlocks_update_types_aux old new ops h,
     diffBlocks_delins_types_aux old new ops h⟩, by decide, by decide⟩

theorem C2_mergeUpdate_witness :
    ∃ ob, [pblkId "old" "b1"].find? (fun b => b.id == some "b1") = some ob ∧
      (getBlockContent ob).type = (getBlockContent (pblk "new")).type :=
  (C2_mergeUpdate.1 [pblkId "old" "b1"] [pblk "new"]
    [.update "b1" (pblk "new")] (by decide)).1 0 "b1" (pblk "new") (by decide)

/-- C10 counterexample: the differ is NOT total on malformed (id-less)
blocks — a type change between two id-less blocks emits a `delete`
followed by `insert` whose merge-pass lookup of the id `''` finds no
block, so the source evaluates `getBlockContent(undefined)` and throws a
`TypeError`. -/
theorem C10_counterexample :
    diffBlocks [h1blk "x"] [pblk "x"] =
      .error "TypeError: getBlockContent of undefined" := by
  decide

/-- C10 (amended): the `''` defaults hold — a block with no type tag is
compared with type `''` and one with no rich-text payload with text `''`
(so two such blocks always match); an id-less block appears in emitted
`keep`/`delete` ops with block id `''` whenever the merge pass does not
dereference it (a matching pair, or a deletion not followed by an
insertion); and the differ is total when every old block carries an id —
but not on arbitrary malformed input (see the counterexample). -/
theorem C10_defaults :
    (∀ a b : Block, a.type = none → b.type = none →
      a.fields.lookup "" = none → b.fields.lookup "" = none →
      blocksMatch a b = true) ∧
    (∀ b nb : Block, b.id = none → blocksMatch b nb = true →
      diffBlocks [b] [nb] = .ok [.keep ""]) ∧
    (∀ b : Block, b.id = none → diffBlocks [b] [] = .ok [.delete ""]) ∧
    (∀ old new : List Block, (∀ b ∈ old, b.id.isSome) →
      ∃ ops, diffBlocks old new = .ok ops) := by
  refine ⟨?_, ?_, ?_, diffBlocks_ok⟩
  · intro a b ha hb hfa hfb
    simp [blocksMatch, getBlockContent, ha, hb, hfa, hfb]
  · intro b nb hb hm
    have h := backtrack_ss [b] [nb] 0 0
    rw [show blockAt [b] 0 = b from rfl, show blockAt [nb] 0 = nb from rfl,
      hm] at h
    simp only [if_true, backtrack_zz, List.nil_append] at h
    have hbid : bid b = "" := by simp [bid, hb]
    rw [hbid] at h
    show (mergePass [b] (backtrack [b] [nb] 1 1)).map anchorPass =
      .ok [.keep ""]
    rw [show (1 : Nat) = 0 + 1 from rfl, h]
    rfl
  · intro b hb
    have h := backtrack_sz [b] [] 0
    rw [show blockAt [b] 0 = b from rfl] at h
    simp only [backtrack_zz, List.nil_append] at h
    have hbid : bid b = "" := by simp [bid, hb]
    rw [hbid] at h
    show (mergePass [b] (backtrack [b] [] 1 0)).map anchorPass =
      .ok [.delete ""]
    rw [show (1 : Nat) = 0 + 1 from rfl, h]
    rfl

theorem C10_defaults_witness :
    blocksMatch ⟨some "i", none, []⟩ ⟨none, none, [("x", none)]⟩ = true ∧
    diffBlocks [⟨none, some "paragraph", []⟩] [] = .ok [.delete ""] :=
  ⟨C10_defaults.1 _ _ rfl rfl rfl rfl, C10_defaults.2.2.1 _ rfl⟩

/-- C1 counterexample: the round-trip law does NOT hold for arbitrary
block lists — `diffBlocks` on a plain same-type text edit between id-less
(request-format) blocks returns no op list at all: its merge pass looks
the deleted block up by an id that is `''`, finds nothing, and throws a
`TypeError`. -/
theorem C1_counterexample :
    diffBlocks [pblk "a"] [pblk "b"] =
      .error "TypeError: getBlockContent of undefined" := by
  decide

/-- C1 (amended): for old block lists whose blocks all carry ids, pairwise
distinct, `diffBlocks old new` succeeds and sequentially applying the
returned ops to `old` — keep retains, delete removes by id, update
replaces by id in place, insert places after its anchor or at the head
when the anchor is null, consecutive inserts landing in emission order —
rebuilds a list whose blocks match `new` element-wise. -/
theorem C1_roundtrip (old new : List Block)
    (hids : ∀ b ∈ old, b.id.isSome)
    (hnodup : (old.map bid).Nodup) :
    ∃ ops res, diffBlocks old new = .ok ops ∧
      applyOpsSpec old ops = some res ∧
      res.map getBlockContent = new.map getBlockContent :=
  diffBlocks_roundtrip_aux old new hids hnodup

theorem C1_roundtrip_witness :
    ∃ ops res,
      diffBlocks [pblkId "a" "1", pblkId "b" "2"] [pblk "b", pblk "c"] =
        .ok ops ∧
      applyOpsSpec [pblkId "a" "1", pblkId "b" "2"] ops = some res ∧
      res.map getBlockContent = [pblk "b", pblk "c"].map getBlockContent :=
  C1_roundtrip [pblkId "a" "1", pblkId "b" "2"] [pblk "b", pblk "c"]
    (by decide) (by decide)

end NotionSync

namespace NotionSync

/-- C6: on a successful run, `startupSync` archives exactly the paths in
`prePullKeys ∖ currentLocalPaths`: an `archivePage` effect for a path is
emitted iff that path was tracked in state before the remote-only pull
step (`mid`, the push-phase result) and is absent from the local scan.  In
particular a file the pull step just brought in (untracked before the
pull) is never archived, and a file present in the local scan is never
archived. -/
theorem C6_archiveSet (env : Env) (loaded : Option SyncStateR)
    (rootId absDir : String) (files dirs : List LocalFile) (tree : NForest)
    (mid pulled : SyncStateR) (tr1 tr2 : List Eff)
    (hpush : pushPhase env loaded rootId absDir files dirs = (.ok mid, tr1))
    (hpull : pullForest env absDir tree "" mid = (.ok pulled, tr2)) :
    ∀ p : String,
      (∃ pid, Eff.archivePage p pid ∈
        (startupSyncM env loaded rootId absDir files dirs tree).2) ↔
      (p ∈ mid.files.map Prod.fst ∧
        p ∉ files.map LocalFile.relativePath) := by
  intro p
  simp only [startupSyncM, hpush, hpull]
  constructor
  · rintro ⟨pid, hmem⟩
    have hno1 : Eff.archivePage p pid ∉ tr1 := by
      have := pushPhase_noArch env loaded rootId absDir p pid files dirs
      rw [hpush] at this
      exact this
    have hno2 : Eff.archivePage p pid ∉ tr2 := by
      have := pullForest_noArch env absDir p pid tree "" mid
      rw [hpull] at this
      exact this
    simp only [List.mem_append, List.mem_singleton] at hmem
    rcases hmem with ((h | h) | h) | h
    · exact absurd h hno1
    · exact absurd h hno2
    · obtain ⟨kv, hkvm, hkve⟩ := List.mem_map.1 h
      obtain ⟨hkv1, -⟩ := Eff.archivePage.inj hkve
      obtain ⟨hkvP, hpred⟩ := List.mem_filter.1 hkvm
      rw [Bool.and_eq_true, Bool.not_eq_true'] at hpred
      obtain ⟨hpre, hloc⟩ := hpred
      subst hkv1
      refine ⟨(contains_iff _ _).1 hpre, fun hc => ?_⟩
      rw [(contains_iff (files.map LocalFile.relativePath) kv.1).2 hc] at hloc
      cases hloc
    · cases h
  · rintro ⟨hpre, hloc⟩
    have hs : (mid.files.lookup p).isSome :=
      (lookup_isSome_iff_mem_keys mid.files p).2 hpre
    have hs' : (pulled.files.lookup p).isSome :=
      pullForest_mono env absDir tree "" mid pulled tr2 hpull p hs
    obtain ⟨v, hv⟩ := Option.isSome_iff_exists.1 hs'
    have hmemP : (p, v) ∈ pulled.files := lookup_mem pulled.files p v hv
    refine ⟨v.notionPageId, ?_⟩
    simp only [List.mem_append, List.mem_singleton]
    refine Or.inl (Or.inr ?_)
    refine List.mem_map.2 ⟨(p, v), List.mem_filter.2 ⟨hmemP, ?_⟩, rfl⟩
    rw [Bool.and_eq_true, Bool.not_eq_true']
    constructor
    · exact (contains_iff _ _).2 hpre
    · rw [← Bool.not_eq_true]
      intro hc
      exact hloc ((contains_iff _ _).1 hc)

theorem C6_archiveSet_witness :
    ∃ pid, Eff.archivePage "gone.md" pid ∈
      (startupSyncM env0
        (some ⟨"oldroot", "/d", [("gone.md", ⟨"pid1", "h", "t", "s"⟩)], []⟩)
        "root" "/d" [] [] .nil).2 :=
  (C6_archiveSet env0
    (some ⟨"oldroot", "/d", [("gone.md", ⟨"pid1", "h", "t", "s"⟩)], []⟩)
    "root" "/d" [] [] .nil
    ⟨"root", "/d", [("gone.md", ⟨"pid1", "h", "t", "s"⟩)], []⟩
    ⟨"root", "/d", [("gone.md", ⟨"pid1", "h", "t", "s"⟩)], []⟩ [] []
    (by decide) (by decide) "gone.md").2 ⟨by decide, by decide⟩

end NotionSync
